import Mathlib

/-!
Verification development for the kuzco AI-assistant CLI (src/ai_cli).

The Python sources are shallowly embedded over `List Char` (the model of a
Python `str`).  Each definition carries a comment naming the function of the
source tree it translates.  Regular-expression passes of the source are
translated into explicit character-list scanners with the same matching
semantics (leftmost match, lazy/greedy quantifier behaviour, case-insensitive
comparison where the source passes `re.IGNORECASE`); recursion is made total
with a fuel argument that the top-level wrappers always instantiate with a
sufficient bound (`length + 1`).
-/

/-- Model of a Python `str`: a list of characters. -/
abbrev Str := List Char

/-- The backtick character (code 96). -/
def btChar : Char := Char.ofNat 96

/-- The apostrophe character (code 39). -/
def apoChar : Char := Char.ofNat 39

/-- Characters treated as whitespace by Python `str.strip` and regex `\s`
(ASCII range; the sources only ever meet ASCII whitespace). -/
def pyIsSpace (c : Char) : Bool :=
  c == ' ' || c == '\t' || c == '\n' || c == '\r' || c == Char.ofNat 11 || c == Char.ofNat 12

/-- ASCII lower-casing of one character, as Python `str.lower` does on ASCII. -/
def pyLowerChar (c : Char) : Char :=
  if 65 ≤ c.toNat && c.toNat ≤ 90 then Char.ofNat (c.toNat + 32) else c

/-- Python `str.lower` (ASCII fragment). -/
def pyLower (s : Str) : Str := s.map pyLowerChar

/-- Python `str.strip()`: drop leading and trailing whitespace. -/
def pyStrip (s : Str) : Str :=
  ((s.dropWhile pyIsSpace).reverse.dropWhile pyIsSpace).reverse

/-- Case-insensitive equality of two characters (ASCII case folding), the
per-character test behind `re.IGNORECASE`.  Stated arithmetically on the code
points so that no character constructor appears in proofs. -/
def charCIEq (a b : Char) : Bool :=
  a == b
    || (65 ≤ a.toNat && a.toNat ≤ 90 && a.toNat + 32 == b.toNat)
    || (65 ≤ b.toNat && b.toNat ≤ 90 && b.toNat + 32 == a.toNat)

/-- Python `str.startswith` (case-sensitive): does `pat` start `s`? -/
def startsWith : Str → Str → Bool
  | [], _ => true
  | _ :: _, [] => false
  | p :: ps, c :: cs => p == c && startsWith ps cs

/-- Case-insensitive prefix test (`re.IGNORECASE` literals). -/
def startsWithCI : Str → Str → Bool
  | [], _ => true
  | _ :: _, [] => false
  | p :: ps, c :: cs => charCIEq p c && startsWithCI ps cs

/-- Python `in` on strings: does `pat` occur somewhere in `s`? -/
def subOccurs (pat : Str) : Str → Bool
  | [] => startsWith pat []
  | c :: cs => startsWith pat (c :: cs) || subOccurs pat cs

/-- Case-insensitive substring occurrence. -/
def subOccursCI (pat : Str) : Str → Bool
  | [] => startsWithCI pat []
  | c :: cs => startsWithCI pat (c :: cs) || subOccursCI pat cs

/-- Find the first (leftmost) occurrence of `pat` in `s`, case-sensitively:
returns the text before the occurrence and the text after it.  This is the
scan performed by a lazy `.*?pat` in `re.DOTALL` mode. -/
def scanLit (pat : Str) : Str → Option (Str × Str)
  | [] => if startsWith pat [] then some ([], []) else none
  | c :: cs =>
    if startsWith pat (c :: cs) then some ([], List.drop pat.length (c :: cs))
    else match scanLit pat cs with
         | some (pre, post) => some (c :: pre, post)
         | none => none

/-- Case-insensitive version of `scanLit` (for `re.IGNORECASE` patterns). -/
def scanLitCI (pat : Str) : Str → Option (Str × Str)
  | [] => if startsWithCI pat [] then some ([], []) else none
  | c :: cs =>
    if startsWithCI pat (c :: cs) then some ([], List.drop pat.length (c :: cs))
    else match scanLitCI pat cs with
         | some (pre, post) => some (c :: pre, post)
         | none => none

/-- Python `s.replace(pat, "")` for non-empty `pat`: delete every
(non-overlapping, leftmost-first) occurrence.  `fuel` bounds recursion;
`s.length + 1` always suffices. -/
def eraseAllAux (pat : Str) : Nat → Str → Str
  | 0, s => s
  | _ + 1, [] => []
  | fuel + 1, c :: cs =>
    if !pat.isEmpty && startsWith pat (c :: cs) then
      eraseAllAux pat fuel (List.drop pat.length (c :: cs))
    else c :: eraseAllAux pat fuel cs

/-- Python `s.replace(pat, "")`. -/
def eraseAll (pat s : Str) : Str := eraseAllAux pat (s.length + 1) s

/-- Python `s.split('\n')`. -/
def pySplitNl : Str → List Str
  | [] => [[]]
  | c :: cs =>
    match pySplitNl cs with
    | [] => [[c]]
    | h :: t => if c == '\n' then [] :: h :: t else (c :: h) :: t

/-- Python `'\n'.join(parts)`. -/
def joinNl (parts : List Str) : Str := List.intercalate ['\n'] parts

/-! ## file_handler.py — FileHandler.validate_cleaned_content -/

/-- `FileHandler.validate_cleaned_content` (src/ai_cli/file_handler.py:184-204).
Returns the `(bool, str)` tuple of the source.  The source's second test is
`len(cleaned) < len(original) * 0.1` with `0.1` a binary double; for every
length below 2^49 that float comparison coincides with the exact comparison
`10 * len(cleaned) < len(original)` used here (for multiples of ten the
rounded product `n * 0.1` is exactly `n / 10`, and otherwise the error is far
smaller than the distance to the nearest integer). -/
def validate_cleaned_content (original cleaned file_type : Str) : Bool × Str :=
  if cleaned.isEmpty || cleaned.length < 10 then
    (false, ("Content appears to be empty after cleaning").toList)
  else if 10 * cleaned.length < original.length then
    (false, ("Content reduced by more than 90% - may be over-cleaned").toList)
  else
    (true, ("Content validated successfully").toList)

/-- The `code_extensions` set of `validate_cleaned_content`. -/
def code_extensions : List Str :=
  [(".py").toList, (".js").toList, (".java").toList, (".cpp").toList,
   (".c").toList, (".go").toList, (".rs").toList]

/-- Condition under which `validate_cleaned_content` prints its advisory
"No Python keywords found" warning (a `console.print`, not part of the
returned tuple). -/
def python_keyword_warning (cleaned file_type : Str) : Bool :=
  code_extensions.contains file_type
    && file_type == (".py").toList
    && !subOccurs (("def ").toList) cleaned
    && !subOccurs (("class ").toList) cleaned
    && !subOccurs (("import ").toList) cleaned
    && cleaned.length > 50

/-! ## errors.py — Validator.validate_command -/

/-- The result dictionary of `Validator.validate_command`
(src/ai_cli/errors.py:291-327). -/
structure CommandCheck where
  valid : Bool
  safe : Bool
  warnings : List Str
  requires_sudo : Bool
deriving DecidableEq, Repr

/-- The `dangerous_patterns` table of `Validator.validate_command`
(src/ai_cli/errors.py:302-309), in source order. -/
def dangerous_patterns : List (Str × Str) :=
  [ (("rm -rf").toList, ("⚠️  Recursive deletion - will delete entire directory trees").toList),
    (("dd if=").toList, ("⚠️  Disk operation - can overwrite entire disks").toList),
    (("mkfs").toList, ("⚠️  Format operation - will erase filesystem").toList),
    (("> /dev/").toList, ("⚠️  Device write - can damage system").toList),
    (("fork()").toList, ("⚠️  Fork bomb risk").toList),
    ((":()\x7b :|:& \x7d").toList, ("⚠️  Fork bomb detected!").toList) ]

/-- One iteration of the `for pattern, warning in dangerous_patterns` loop:
`if pattern.lower() in command_lower: append warning; safe = False`. -/
def dangerStep (commandLower : Str) (acc : CommandCheck) (pw : Str × Str) : CommandCheck :=
  if subOccurs (pyLower pw.1) commandLower then
    { acc with warnings := acc.warnings ++ [pw.2], safe := false }
  else acc

/-- The sudo warning string of `validate_command`. -/
def sudoWarnStr : Str := ("🔒 Requires administrator privileges").toList

/-- The overwrite warning string of `validate_command`. -/
def overwriteWarnStr : Str := ("📝 Will overwrite existing file if it exists").toList

/-- The sudo check of `Validator.validate_command` (src/ai_cli/errors.py:318-321):
`command.strip().startswith(('sudo ', 'su '))` — note the two hardcoded
prefixes each end in a space; `Config.SUDO_PREFIXES` is not consulted here. -/
def sudoStep (command : Str) (acc : CommandCheck) : CommandCheck :=
  if startsWith (("sudo ").toList) (pyStrip command)
      || startsWith (("su ").toList) (pyStrip command) then
    { acc with requires_sudo := true, warnings := acc.warnings ++ [sudoWarnStr] }
  else acc

/-- The overwrite check of `Validator.validate_command`
(src/ai_cli/errors.py:323-325): `'>' in command and '>>' not in command`. -/
def overwriteStep (command : Str) (acc : CommandCheck) : CommandCheck :=
  if subOccurs ['>'] command && !subOccurs ['>', '>'] command then
    { acc with warnings := acc.warnings ++ [overwriteWarnStr] }
  else acc

/-- `Validator.validate_command` (src/ai_cli/errors.py:291-327): start from
`{valid: True, safe: True, warnings: [], requires_sudo: False}`, run the
dangerous-pattern loop on the lowered command, then the sudo check, then the
overwrite check. -/
def validate_command (command : Str) : CommandCheck :=
  overwriteStep command (sudoStep command
    (dangerous_patterns.foldl (dangerStep (pyLower command))
      { valid := true, safe := true, warnings := [], requires_sudo := false }))

/-! ## system.py / commands.py — command extraction, gating, execution -/

/-- The literal `EXECUTE_COMMAND:` marker. -/
def execMarker : Str := ("EXECUTE_COMMAND:").toList

/-- `SystemOperations.parse_commands` = `CommandExecutor.parse_commands`
(src/ai_cli/system.py:54-64, src/ai_cli/commands.py:16-26): lines whose
stripped form starts with the marker; the command is the line with every
occurrence of the marker deleted, then stripped. -/
def parse_commands (response : Str) : List Str :=
  if subOccurs execMarker response then
    ((pySplitNl response).filter (fun line => startsWith execMarker (pyStrip line))).map
      (fun line => pyStrip (eraseAll execMarker line))
  else []

/-- The y/yes test of `_execute_selective`: `choice.strip().lower() in ['y', 'yes']`. -/
def isYesAnswer (ans : Str) : Bool :=
  pyLower (pyStrip ans) == ("y").toList || pyLower (pyStrip ans) == ("yes").toList

/-- `CommandExecutor._execute_selective` (src/ai_cli/commands.py:87-96),
modelled as the list of commands passed to `execute_single`, in order: the
i-th command is executed exactly when the i-th interactive answer is y/yes;
any other answer skips that one command and the loop continues. -/
def execute_selective : List Str → List Str → List Str
  | [], _ => []
  | _ :: _, [] => []
  | cmd :: cmds, ans :: answers =>
    if isYesAnswer ans then cmd :: execute_selective cmds answers
    else execute_selective cmds answers

/-- Result of the `subprocess.run(...)` boundary call in `execute_single`:
either the process completed with an exit code and captured output, or the
timeout expired (`subprocess.TimeoutExpired`), or spawning/running raised
some other exception. -/
inductive SubprocessOutcome where
  | completed (returncode : Int) (stdout stderr : Str)
  | timedOut
  | spawnFailure (message : Str)
deriving DecidableEq

/-- The diagnostic printed by `execute_single`, one distinct constructor per
console branch of the source. -/
inductive ExecReport where
  | success (stdout : Str)
  | failedExit (returncode : Int) (stderr : Str)
  | timeoutHit (limitSeconds : Nat)
  | execException (message : Str)
deriving DecidableEq

/-- `CommandExecutor.execute_single` (src/ai_cli/commands.py:28-63), with the
subprocess boundary made explicit: given the outcome of the spawned process
it returns the boolean result of the source together with the diagnostic it
prints.  Every outcome is handled (the source wraps the call in
`try/except subprocess.TimeoutExpired/except Exception`), so the function is
total: control always returns to the caller. -/
def execute_single (timeoutSeconds : Nat) (outcome : SubprocessOutcome) : Bool × ExecReport :=
  match outcome with
  | .completed rc out err =>
    if rc = 0 then (true, .success out) else (false, .failedExit rc err)
  | .timedOut => (false, .timeoutHit timeoutSeconds)
  | .spawnFailure m => (false, .execException m)

/-! ## parser.py — model family detection -/

/-- `ModelResponseParser._detect_model_family` (src/ai_cli/parser.py:61-77).
`[]` models both `None` and the empty model name (`if not model_name`). -/
def detect_model_family (model_name : Str) : Str :=
  if model_name.isEmpty then ("default").toList
  else if subOccurs (("llama").toList) (pyLower model_name)
      && !subOccurs (("code").toList) (pyLower model_name) then
    ("llama").toList
  else if subOccurs (("codellama").toList) (pyLower model_name)
      || subOccurs (("code").toList) (pyLower model_name) then
    ("codellama").toList
  else if subOccurs (("mistral").toList) (pyLower model_name) then ("mistral").toList
  else if subOccurs (("deepseek").toList) (pyLower model_name) then ("deepseek").toList
  else ("default").toList

/-! ## file_handler.py — FileHandler.clean_ai_response

The seven stages of `clean_ai_response` (src/ai_cli/file_handler.py:126-182):
thought-tag removal, two fenced-code-block unwrapping passes, the lead-in /
separator-line removal passes, trailing-explanation truncation, newline
collapsing, and a final strip.  Each regex `re.sub` pass of the source is one
scanner below; scanners advance one character at a time and, like `re.sub`,
resume right after each removed (or rewritten) match. -/

/-- One `re.sub(r"<tag>.*?</tag>", "", s, re.DOTALL | re.IGNORECASE)` pass:
remove from each leftmost opening tag through the nearest closing tag.  When
an opening tag has no closing tag after it the pattern cannot match there nor
at any later position, so the rest of the text is kept unchanged. -/
def removeTaggedAux (opening closing : Str) : Nat → Str → Str
  | 0, s => s
  | _ + 1, [] => []
  | fuel + 1, c :: cs =>
    if startsWithCI opening (c :: cs) then
      match scanLitCI closing (List.drop opening.length (c :: cs)) with
      | some (_, post) => removeTaggedAux opening closing fuel post
      | none => c :: cs
    else c :: removeTaggedAux opening closing fuel cs

/-- Top-level wrapper of `removeTaggedAux` with sufficient fuel. -/
def removeTagged (opening closing s : Str) : Str :=
  removeTaggedAux opening closing (s.length + 1) s

/-- The tag names of the `thinking_patterns` list
(src/ai_cli/file_handler.py:132-139), in source order. -/
def thinkingTagNames : List Str :=
  [("thinking").toList, ("thoughts").toList, ("reasoning").toList,
   ("reflection").toList, ("planning").toList, ("analysis").toList]

/-- The literal triple-backtick fence. -/
def fence : Str := ("```").toList

/-- Regex `\w` on ASCII: letters, digits, underscore. -/
def isWordChar (c : Char) : Bool := c.isAlphanum || c == '_'

/-- `re.sub(r"(fence)[\w]*\n(.*?)(fence)", r"\1", s, re.DOTALL)`
(src/ai_cli/file_handler.py:146): unwrap language-tagged fenced blocks to
their inner content.  The greedy `[\w]*` is the maximal word-character run
(shorter runs leave a word character where `\n` is required, so backtracking
never helps), and the lazy body ends at the nearest closing fence. -/
def unwrapFencedLangAux : Nat → Str → Str
  | 0, s => s
  | _ + 1, [] => []
  | fuel + 1, c :: cs =>
    if startsWith fence (c :: cs) then
      let afterLang := (List.drop 3 (c :: cs)).dropWhile isWordChar
      if afterLang.head? = some '\n' then
        match scanLit fence afterLang.tail with
        | some (inner, post) => inner ++ unwrapFencedLangAux fuel post
        | none => c :: unwrapFencedLangAux fuel cs
      else c :: unwrapFencedLangAux fuel cs
    else c :: unwrapFencedLangAux fuel cs

/-- Top-level wrapper of `unwrapFencedLangAux`. -/
def unwrapFencedLang (s : Str) : Str := unwrapFencedLangAux (s.length + 1) s

/-- `re.sub(r"(fence)\n?(.*?)(fence)", r"\1", s, re.DOTALL)`
(src/ai_cli/file_handler.py:149): unwrap remaining fenced blocks.  When a
newline follows the fence the lazy body starts after it; if no closing fence
exists after the newline then none exists from the newline on either, so the
optional `\n?` cannot rescue the match. -/
def unwrapFencedPlainAux : Nat → Str → Str
  | 0, s => s
  | _ + 1, [] => []
  | fuel + 1, c :: cs =>
    if startsWith fence (c :: cs) then
      let afterTicks := List.drop 3 (c :: cs)
      let body := if afterTicks.head? = some '\n' then afterTicks.tail else afterTicks
      match scanLit fence body with
      | some (inner, post) => inner ++ unwrapFencedPlainAux fuel post
      | none => c :: unwrapFencedPlainAux fuel cs
    else c :: unwrapFencedPlainAux fuel cs

/-- Top-level wrapper of `unwrapFencedPlainAux`. -/
def unwrapFencedPlain (s : Str) : Str := unwrapFencedPlainAux (s.length + 1) s

/-- The lazy `.*?:` scan of the lead-in patterns (`.` excludes newlines):
find, on the current line, the first `:` that is immediately followed by a
newline, and return the suffix starting at that newline. -/
def findColonNl : Str → Option Str
  | [] => none
  | c :: cs =>
    if c = ':' then (if cs.head? = some '\n' then some cs else findColonNl cs)
    else if c = '\n' then none
    else findColonNl cs

/-- One `re.sub(r"^LIT.*?:\n+", "", s, re.MULTILINE | re.IGNORECASE)` pass
(the `Here's the`, `Here is the`, `The following`, `Below is` lead-ins of
src/ai_cli/file_handler.py:153-162).  `atLS` tracks whether the current
position is a line start (`^` in MULTILINE mode). -/
def stripLeadInAux (lit : Str) : Nat → Bool → Str → Str
  | 0, _, s => s
  | _ + 1, _, [] => []
  | fuel + 1, atLS, c :: cs =>
    if atLS && startsWithCI lit (c :: cs) then
      match findColonNl (List.drop lit.length (c :: cs)) with
      | some rest => stripLeadInAux lit fuel true (rest.dropWhile (· == '\n'))
      | none => c :: stripLeadInAux lit fuel (c == '\n') cs
    else c :: stripLeadInAux lit fuel (c == '\n') cs

/-- Top-level wrapper of `stripLeadInAux` (a string starts at a line start). -/
def stripLeadIn (lit s : Str) : Str := stripLeadInAux lit (s.length + 1) true s

/-- One `re.sub(r"^LIT:\n+", "", s, re.MULTILINE | re.IGNORECASE)` pass (the
`Modified content:`, `Updated file:`, `Fixed version:`, `Edited content:`
lead-ins of src/ai_cli/file_handler.py:155-158; the colon is part of `lit`). -/
def stripLitLineAux (lit : Str) : Nat → Bool → Str → Str
  | 0, _, s => s
  | _ + 1, _, [] => []
  | fuel + 1, atLS, c :: cs =>
    if atLS && startsWithCI lit (c :: cs)
        && (List.drop lit.length (c :: cs)).head? = some '\n' then
      stripLitLineAux lit fuel true
        ((List.drop lit.length (c :: cs)).dropWhile (· == '\n'))
    else c :: stripLitLineAux lit fuel (c == '\n') cs

/-- Top-level wrapper of `stripLitLineAux`. -/
def stripLitLine (lit s : Str) : Str := stripLitLineAux lit (s.length + 1) true s

/-- The suffix of `s` after its last newline (equal to `s` itself when `s`
has no newline). -/
def afterLastNl (s : Str) : Str := (s.reverse.takeWhile (· != '\n')).reverse

/-- `re.sub(r"^\s*---+\s*\n", "", s, re.MULTILINE | re.IGNORECASE)`
(src/ai_cli/file_handler.py:159).  At a line start: the greedy `\s*` is the
maximal whitespace run (shorter runs leave whitespace where a dash is
required), then at least three dashes, then a whitespace run that must
contain a newline; greedy backtracking ends the match right after the last
newline of that run. -/
def stripSepLineAux : Nat → Bool → Str → Str
  | 0, _, s => s
  | _ + 1, _, [] => []
  | fuel + 1, atLS, c :: cs =>
    if atLS then
      let r1 := (c :: cs).dropWhile pyIsSpace
      let dashes := r1.takeWhile (· == '-')
      let r2 := r1.dropWhile (· == '-')
      let ws2 := r2.takeWhile pyIsSpace
      let r3 := r2.dropWhile pyIsSpace
      if decide (3 ≤ dashes.length) && ws2.contains '\n' then
        stripSepLineAux fuel true (afterLastNl ws2 ++ r3)
      else c :: stripSepLineAux fuel (c == '\n') cs
    else c :: stripSepLineAux fuel (c == '\n') cs

/-- Top-level wrapper of `stripSepLineAux`. -/
def stripSepLine (s : Str) : Str := stripSepLineAux (s.length + 1) true s

/-- `re.sub(r"\n\s*---+\s*$", "", s, re.MULTILINE | re.IGNORECASE)`
(src/ai_cli/file_handler.py:160).  After a newline: maximal whitespace run,
at least three dashes, then a whitespace run after which `$` must hold — the
match ends at the end of the string when only whitespace remains, and
otherwise just before the last newline of that run (which is where greedy
backtracking places the zero-width `$`). -/
def stripTrailSepAux : Nat → Str → Str
  | 0, s => s
  | _ + 1, [] => []
  | fuel + 1, c :: cs =>
    if c == '\n' then
      let r1 := cs.dropWhile pyIsSpace
      let dashes := r1.takeWhile (· == '-')
      let r2 := r1.dropWhile (· == '-')
      let ws2 := r2.takeWhile pyIsSpace
      let r3 := r2.dropWhile pyIsSpace
      if decide (3 ≤ dashes.length) && r3.isEmpty then []
      else if decide (3 ≤ dashes.length) && ws2.contains '\n' then
        stripTrailSepAux fuel ('\n' :: (afterLastNl ws2 ++ r3))
      else '\n' :: stripTrailSepAux fuel cs
    else c :: stripTrailSepAux fuel cs

/-- Top-level wrapper of `stripTrailSepAux`. -/
def stripTrailSep (s : Str) : Str := stripTrailSepAux (s.length + 1) s

/-- The lead-in literal of `r"^Here\'s the .*?:\n+"` (case-insensitive). -/
def heresTheLit : Str := ("Here").toList ++ [apoChar] ++ ("s the ").toList

/-- The lead-in literal of `r"^Here is the .*?:\n+"`. -/
def hereIsTheLit : Str := ("Here is the ").toList

/-- Does the cue `lit` followed by one whitespace character (regex `LIT\s`)
match at the start of `t`? -/
def litThenWs (lit t : Str) : Bool :=
  startsWithCI lit t &&
    match List.drop lit.length t with
    | d :: _ => pyIsSpace d
    | [] => false

/-- The cue alternation of the trailing-explanation search
(src/ai_cli/file_handler.py:170-174):
`(This\s|The\s+above|I\'ve\s|Note\s|Notice|Explanation:|Changes:)`,
case-insensitively, at the start of `t`.  `The\s+above` is a maximal
whitespace run followed by `above` (shorter runs put `above` against a
whitespace character). -/
def cueAt (t : Str) : Bool :=
  litThenWs (("This").toList) t
    || (startsWithCI (("The").toList) t &&
          (let rest := List.drop 3 t
           !(rest.takeWhile pyIsSpace).isEmpty &&
             startsWithCI (("above").toList) (rest.dropWhile pyIsSpace)))
    || litThenWs (("I").toList ++ [apoChar] ++ ("ve").toList) t
    || litThenWs (("Note").toList) t
    || startsWithCI (("Notice").toList) t
    || startsWithCI (("Explanation:").toList) t
    || startsWithCI (("Changes:").toList) t

/-- The `re.search(r"\n\n(This\s|...)" ...)` truncation
(src/ai_cli/file_handler.py:168-176): cut the text at the leftmost position
where two newlines are followed by a cue; keep everything before it. -/
def truncateTrail : Str → Str
  | [] => []
  | c :: cs =>
    if c == '\n' && cs.head? = some '\n' && cueAt cs.tail then []
    else c :: truncateTrail cs

/-- `re.sub(r"\n{3,}", "\n\n", s)` (src/ai_cli/file_handler.py:179): collapse
each maximal run of three or more newlines to exactly two. -/
def collapseNlAux : Nat → Str → Str
  | 0, s => s
  | _ + 1, [] => []
  | fuel + 1, c :: cs =>
    if c == '\n' then
      let run := cs.takeWhile (· == '\n')
      let rest := cs.dropWhile (· == '\n')
      if 2 ≤ run.length then '\n' :: '\n' :: collapseNlAux fuel rest
      else c :: (run ++ collapseNlAux fuel rest)
    else c :: collapseNlAux fuel cs

/-- Top-level wrapper of `collapseNlAux`. -/
def collapseNl (s : Str) : Str := collapseNlAux (s.length + 1) s

/-- `FileHandler.clean_ai_response` (src/ai_cli/file_handler.py:126-182): the
full file-write cleaning pipeline, stages applied in source order. -/
def clean_ai_response (content : Str) : Str :=
  pyStrip
    (collapseNl
      (truncateTrail
        (stripLeadIn (("Below is").toList)
          (stripLeadIn (("The following").toList)
            (stripTrailSep
              (stripSepLine
                (stripLitLine (("Edited content:").toList)
                  (stripLitLine (("Fixed version:").toList)
                    (stripLitLine (("Updated file:").toList)
                      (stripLitLine (("Modified content:").toList)
                        (stripLeadIn hereIsTheLit
                          (stripLeadIn heresTheLit
                            (unwrapFencedPlain
                              (unwrapFencedLang
                                (thinkingTagNames.foldl
                                  (fun acc t =>
                                    removeTagged (('<' :: t) ++ ['>'])
                                      (('<' :: '/' :: t) ++ ['>']) acc)
                                  content)))))))))))))))

/-! ## files.py — the FileHandler actually used by AIAssistant -/

/-- `FileHandler.clean_ai_response` of src/ai_cli/files.py:107-114 (the
module `assistant.py` imports): only unwraps one leading fenced block, by
dropping the first and last line when the text starts with a fence and has
more than two lines. -/
def files_clean_ai_response (content : Str) : Str :=
  if startsWith fence content then
    let lines := pySplitNl content
    if 2 < lines.length then joinNl (lines.drop 1).dropLast else content
  else content

/-! ## The two file-edit paths -/

/-- Outcome of `FileHandler.edit_file` (src/ai_cli/file_handler.py:69-124)
after the model reply arrived: either the cleaned content that is written to
the target file, or an abort that surfaces the raw response for manual
review. -/
inductive EditOutcome where
  | written (content : Str)
  | aborted (surfacedRaw : Str)
deriving DecidableEq

/-- The write decision of `FileHandler.edit_file`
(src/ai_cli/file_handler.py:90-117): clean the raw reply, validate it
against the original content and the file suffix, write only on `valid`,
otherwise abort and surface the raw reply. -/
def fh_edit_file (original raw ext : Str) : EditOutcome :=
  if (validate_cleaned_content original (clean_ai_response raw) ext).1 then
    EditOutcome.written (clean_ai_response raw)
  else EditOutcome.aborted raw

/-- The write decision of `AIAssistant.edit_file`
(src/ai_cli/assistant.py:282-341): when the file was readable and non-empty
(`if not original_content: return`), the stripped raw reply is cleaned with
the simple `files.py` cleaner and written unconditionally — no validation is
performed on this path. -/
def assistant_edit_file (original raw : Str) : Option Str :=
  if original.isEmpty then none
  else some (files_clean_ai_response (pyStrip raw))

/-! ## parser.py — ModelResponseParser (default family)

`parse_response` (src/ai_cli/parser.py:79-111) for a parser constructed
without a model name, i.e. with the `default` pattern family
(src/ai_cli/parser.py:48-53):
`<.*?thinking.*?>(.*?)</.*?>`, `<.*?thoughts.*?>(.*?)</.*?>`,
`<.*?reasoning.*?>(.*?)</.*?>` and `[thinking](.*?)[/thinking]`,
all with `re.DOTALL | re.IGNORECASE`. -/

/-- A `ResponseSegment` (src/ai_cli/parser.py:18-23); the `language` of a
code segment models its `metadata['language']`. -/
inductive Segment where
  | thought (content : Str)
  | code (content : Str) (language : Str)
  | command (content : Str)
  | text (content : Str)
deriving DecidableEq

/-- Match `.*?WORD.*?>(.*?)</.*?>` directly after an already-consumed `<`:
for a chain of lazy gaps between literals, the backtracking-minimal match
takes the nearest occurrence of each literal in turn (a longer earlier gap
only shrinks the space left for the later literals).  Returns the group-1
capture and the text after the match. -/
def matchAngleAt (word s : Str) : Option (Str × Str) :=
  match scanLitCI word s with
  | none => none
  | some (_, afterWord) =>
    match scanLitCI ['>'] afterWord with
    | none => none
    | some (_, afterOpen) =>
      match scanLitCI ('<' :: ['/']) afterOpen with
      | none => none
      | some (cap, afterClose) =>
        match scanLitCI ['>'] afterClose with
        | none => none
        | some (_, rest) => some (cap, rest)

/-- `re.findall` of `<.*?WORD.*?>(.*?)</.*?>`: scan left to right, collect
group-1 captures, resume after each match. -/
def angleAllAux (word : Str) : Nat → Str → List Str
  | 0, _ => []
  | _ + 1, [] => []
  | fuel + 1, c :: cs =>
    if c == '<' then
      match matchAngleAt word cs with
      | some (cap, rest) => cap :: angleAllAux word fuel rest
      | none => angleAllAux word fuel cs
    else angleAllAux word fuel cs

/-- Top-level wrapper of `angleAllAux`. -/
def angleAll (word s : Str) : List Str := angleAllAux word (s.length + 1) s

/-- `re.sub` of `<.*?WORD.*?>(.*?)</.*?>` with the empty replacement. -/
def removeAngleAllAux (word : Str) : Nat → Str → Str
  | 0, s => s
  | _ + 1, [] => []
  | fuel + 1, c :: cs =>
    if c == '<' then
      match matchAngleAt word cs with
      | some (_, rest) => removeAngleAllAux word fuel rest
      | none => c :: removeAngleAllAux word fuel cs
    else c :: removeAngleAllAux word fuel cs

/-- Top-level wrapper of `removeAngleAllAux`. -/
def removeAngleAll (word s : Str) : Str := removeAngleAllAux word (s.length + 1) s

/-- The literal `[thinking]` opening of the fourth default pattern. -/
def brOpen : Str := ("[thinking]").toList

/-- The literal `[/thinking]` closing of the fourth default pattern. -/
def brClose : Str := ("[/thinking]").toList

/-- `re.findall` of `\[thinking\](.*?)\[/thinking\]`. -/
def bracketAllAux : Nat → Str → List Str
  | 0, _ => []
  | _ + 1, [] => []
  | fuel + 1, c :: cs =>
    if startsWithCI brOpen (c :: cs) then
      match scanLitCI brClose (List.drop brOpen.length (c :: cs)) with
      | some (cap, rest) => cap :: bracketAllAux fuel rest
      | none => bracketAllAux fuel cs
    else bracketAllAux fuel cs

/-- Top-level wrapper of `bracketAllAux`. -/
def bracketAll (s : Str) : List Str := bracketAllAux (s.length + 1) s

/-- `re.sub` of `\[thinking\](.*?)\[/thinking\]` with the empty replacement. -/
def removeBracketAllAux : Nat → Str → Str
  | 0, s => s
  | _ + 1, [] => []
  | fuel + 1, c :: cs =>
    if startsWithCI brOpen (c :: cs) then
      match scanLitCI brClose (List.drop brOpen.length (c :: cs)) with
      | some (_, rest) => removeBracketAllAux fuel rest
      | none => c :: removeBracketAllAux fuel cs
    else c :: removeBracketAllAux fuel cs

/-- Top-level wrapper of `removeBracketAllAux`. -/
def removeBracketAll (s : Str) : Str := removeBracketAllAux (s.length + 1) s

/-- `_extract_thoughts` (src/ai_cli/parser.py:113-125) for the default
family: the group-1 captures of the four patterns, pattern by pattern. -/
def extract_thoughts (s : Str) : List Str :=
  angleAll (("thinking").toList) s ++ angleAll (("thoughts").toList) s
    ++ angleAll (("reasoning").toList) s ++ bracketAll s

/-- `_remove_thoughts` (src/ai_cli/parser.py:127-137) for the default
family: the four substitutions applied in order. -/
def remove_thoughts (s : Str) : Str :=
  removeBracketAll
    (removeAngleAll (("reasoning").toList)
      (removeAngleAll (("thoughts").toList)
        (removeAngleAll (("thinking").toList) s)))

/-- `_extract_code_blocks` (src/ai_cli/parser.py:139-151):
`re.findall(r"(fence)(\w+)?\n(.*?)(fence)", text, re.DOTALL)`, yielding
`(code.strip(), language or 'text')` pairs in match order. -/
def extract_code_blocks_aux : Nat → Str → List (Str × Str)
  | 0, _ => []
  | _ + 1, [] => []
  | fuel + 1, c :: cs =>
    if startsWith fence (c :: cs) then
      let afterTicks := List.drop 3 (c :: cs)
      let lang := afterTicks.takeWhile isWordChar
      let afterLang := afterTicks.dropWhile isWordChar
      if afterLang.head? = some '\n' then
        match scanLit fence afterLang.tail with
        | some (code, post) =>
          (pyStrip code, if lang.isEmpty then ("text").toList else lang)
            :: extract_code_blocks_aux fuel post
        | none => extract_code_blocks_aux fuel cs
      else extract_code_blocks_aux fuel cs
    else extract_code_blocks_aux fuel cs

/-- Top-level wrapper of `extract_code_blocks_aux`. -/
def extract_code_blocks (s : Str) : List (Str × Str) :=
  extract_code_blocks_aux (s.length + 1) s

/-- The `$ command` convention of `_extract_commands`
(src/ai_cli/parser.py:163-168): `re.match(r"^\$\s+(.+)$", line)`.  The
greedy `\s+` is the maximal whitespace run when something follows it;
otherwise backtracking leaves exactly the last whitespace character for the
mandatory `(.+)`. -/
def shellCmd (line : Str) : Option Str :=
  match line with
  | '$' :: rest =>
    let ws := rest.takeWhile pyIsSpace
    let r := rest.dropWhile pyIsSpace
    if ws.isEmpty then none
    else if !r.isEmpty then some r
    else if 2 ≤ ws.length then some (ws.drop (ws.length - 1))
    else none
  | _ => none

/-- `_extract_commands` (src/ai_cli/parser.py:153-170): first every
`EXECUTE_COMMAND:` line (marker deleted, stripped), then every `$ `-line. -/
def extract_commands (s : Str) : List Str :=
  let lines := pySplitNl s
  (lines.filter (fun line => startsWith execMarker (pyStrip line))).map
      (fun line => pyStrip (eraseAll execMarker line))
    ++ lines.filterMap shellCmd

/-- `parse_response` (src/ai_cli/parser.py:79-111), default family: extract
thoughts (one segment holding the newline-join of all captures, skipped when
the join is empty — and in that case the source also skips the removal),
then code blocks (removing each via the exact-substring replace keyed on the
already-stripped code), then commands (removing `EXECUTE_COMMAND: cmd`),
then the stripped remainder as one text segment. -/
def parse_response (response : Str) : List Segment :=
  let thoughts := extract_thoughts response
  let joined := joinNl thoughts
  let remaining1 := if joined.isEmpty then response else remove_thoughts response
  let blocks := extract_code_blocks remaining1
  let remaining2 := blocks.foldl
    (fun acc cb =>
      eraseAll (fence ++ ['\n'] ++ cb.1 ++ fence)
        (eraseAll (fence ++ cb.2 ++ ['\n'] ++ cb.1 ++ fence) acc))
    remaining1
  let cmds := extract_commands remaining2
  let remaining3 := cmds.foldl
    (fun acc cmd => eraseAll (execMarker ++ [' '] ++ cmd) acc) remaining2
  (if joined.isEmpty then [] else [Segment.thought joined])
    ++ blocks.map (fun cb => Segment.code cb.1 cb.2)
    ++ cmds.map Segment.command
    ++ (if (pyStrip remaining3).isEmpty then [] else [Segment.text (pyStrip remaining3)])

/-- The per-segment display of `clean_for_display`
(src/ai_cli/parser.py:172-190): thoughts only when requested, code re-fenced
with its language, command markers dropped, text as is. -/
def segDisplay (show_thoughts : Bool) : Segment → Option Str
  | .thought t => if show_thoughts then some t else none
  | .code c lang => some (fence ++ lang ++ ['\n'] ++ c ++ ['\n'] ++ fence)
  | .command _ => none
  | .text t => some t

/-- `clean_for_display` (src/ai_cli/parser.py:172-190): the kept parts joined
by blank lines. -/
def clean_for_display (response : Str) (show_thoughts : Bool) : Str :=
  List.intercalate ('\n' :: ['\n'])
    ((parse_response response).filterMap (segDisplay show_thoughts))

/-! ## Helper lemmas -/

theorem startsWith_nil_iff (pat : Str) : startsWith pat [] = true ↔ pat = [] := by
  cases pat <;> simp [startsWith]

theorem startsWith_cons_iff (p : Char) (ps : Str) (c : Char) (cs : Str) :
    startsWith (p :: ps) (c :: cs) = true ↔ p = c ∧ startsWith ps cs = true := by
  simp [startsWith, Bool.and_eq_true]

theorem mem_of_startsWith : ∀ (pat s : Str), startsWith pat s = true → ∀ x ∈ pat, x ∈ s
  | [], _, _, x, hx => by simp at hx
  | _ :: _, [], h, _, _ => by simp [startsWith] at h
  | p :: ps, c :: cs, h, x, hx => by
    rcases (startsWith_cons_iff p ps c cs).mp h with ⟨rfl, hrest⟩
    rcases List.mem_cons.mp hx with rfl | hx'
    · exact List.mem_cons_self _ _
    · exact List.mem_cons_of_mem _ (mem_of_startsWith ps cs hrest x hx')

theorem subOccurs_mem : ∀ (pat s : Str), subOccurs pat s = true → ∀ x ∈ pat, x ∈ s
  | pat, [], h, x, hx => by
    rw [show subOccurs pat [] = startsWith pat [] from rfl, startsWith_nil_iff] at h
    subst h; simp at hx
  | pat, c :: cs, h, x, hx => by
    rw [show subOccurs pat (c :: cs)
          = (startsWith pat (c :: cs) || subOccurs pat cs) from rfl,
        Bool.or_eq_true] at h
    rcases h with h | h
    · exact mem_of_startsWith _ _ h x hx
    · exact List.mem_cons_of_mem _ (subOccurs_mem pat cs h x hx)

theorem charCIEq_nonletter {x : Char}
    (hx : x.toNat < 65 ∨ (90 < x.toNat ∧ x.toNat < 97) ∨ 122 < x.toNat) :
    ∀ c : Char, charCIEq x c = true → c = x := by
  intro c h
  simp only [charCIEq, Bool.or_eq_true, Bool.and_eq_true, beq_iff_eq,
    decide_eq_true_eq] at h
  rcases h with (h | ⟨⟨h1, h2⟩, h3⟩) | ⟨⟨h1, h2⟩, h3⟩
  · exact h.symm
  · exfalso; rcases hx with hx | ⟨hx1, hx2⟩ | hx <;> omega
  · exfalso; rcases hx with hx | ⟨hx1, hx2⟩ | hx <;> omega

theorem startsWithCI_head (x : Char) (xs : Str) (c : Char) (cs : Str)
    (h : startsWithCI (x :: xs) (c :: cs) = true) : charCIEq x c = true := by
  simp only [startsWithCI, Bool.and_eq_true] at h
  exact h.1

theorem scanLit_decomp :
    ∀ (pat s pre post : Str), scanLit pat s = some (pre, post) →
      ∃ mid, s = pre ++ mid ++ post
  | pat, [], pre, post, h => by
    simp only [scanLit] at h
    split at h
    · simp only [Option.some.injEq, Prod.mk.injEq] at h
      obtain ⟨rfl, rfl⟩ := h
      exact ⟨[], rfl⟩
    · exact absurd h (by simp)
  | pat, c :: cs, pre, post, h => by
    simp only [scanLit] at h
    split at h
    · simp only [Option.some.injEq, Prod.mk.injEq] at h
      obtain ⟨rfl, rfl⟩ := h
      exact ⟨List.take pat.length (c :: cs), by simp [List.take_append_drop]⟩
    · split at h
      next pre' post' heq =>
        simp only [Option.some.injEq, Prod.mk.injEq] at h
        obtain ⟨rfl, rfl⟩ := h
        obtain ⟨mid, hm⟩ := scanLit_decomp pat cs pre' post' heq
        exact ⟨mid, by simp [hm]⟩
      next => exact absurd h (by simp)

theorem scanLitCI_decomp :
    ∀ (pat s pre post : Str), scanLitCI pat s = some (pre, post) →
      ∃ mid, s = pre ++ mid ++ post
  | pat, [], pre, post, h => by
    simp only [scanLitCI] at h
    split at h
    · simp only [Option.some.injEq, Prod.mk.injEq] at h
      obtain ⟨rfl, rfl⟩ := h
      exact ⟨[], rfl⟩
    · exact absurd h (by simp)
  | pat, c :: cs, pre, post, h => by
    simp only [scanLitCI] at h
    split at h
    · simp only [Option.some.injEq, Prod.mk.injEq] at h
      obtain ⟨rfl, rfl⟩ := h
      exact ⟨List.take pat.length (c :: cs), by simp [List.take_append_drop]⟩
    · split at h
      next pre' post' heq =>
        simp only [Option.some.injEq, Prod.mk.injEq] at h
        obtain ⟨rfl, rfl⟩ := h
        obtain ⟨mid, hm⟩ := scanLitCI_decomp pat cs pre' post' heq
        exact ⟨mid, by simp [hm]⟩
      next => exact absurd h (by simp)

theorem scanLit_post_sublist (pat s pre post : Str)
    (h : scanLit pat s = some (pre, post)) : List.Sublist post s := by
  obtain ⟨mid, hm⟩ := scanLit_decomp pat s pre post h
  rw [hm]
  exact List.sublist_append_right (pre ++ mid) post

theorem scanLitCI_post_sublist (pat s pre post : Str)
    (h : scanLitCI pat s = some (pre, post)) : List.Sublist post s := by
  obtain ⟨mid, hm⟩ := scanLitCI_decomp pat s pre post h
  rw [hm]
  exact List.sublist_append_right (pre ++ mid) post

theorem pyStrip_sublist (s : Str) : List.Sublist (pyStrip s) s := by
  unfold pyStrip
  have h1 : List.Sublist ((s.dropWhile pyIsSpace).reverse.dropWhile pyIsSpace)
      (s.dropWhile pyIsSpace).reverse := List.dropWhile_sublist _
  have h2 := List.Sublist.reverse h1
  rw [List.reverse_reverse] at h2
  exact h2.trans (List.dropWhile_sublist _)

theorem pyStrip_mem (s : Str) (x : Char) (hx : x ∈ pyStrip s) : x ∈ s :=
  (pyStrip_sublist s).subset hx

theorem removeTaggedAux_sublist (op cl : Str) :
    ∀ (fuel : Nat) (s : Str), List.Sublist (removeTaggedAux op cl fuel s) s := by
  intro fuel
  induction fuel with
  | zero => intro s; exact List.Sublist.refl s
  | succ n ih =>
    intro s
    cases s with
    | nil => exact List.Sublist.refl _
    | cons c cs =>
      simp only [removeTaggedAux]
      split
      · split
        next _pre post heq =>
          exact (ih post).trans ((scanLitCI_post_sublist _ _ _ _ heq).trans
            (List.drop_sublist _ _))
        next => exact List.Sublist.refl _
      · exact List.Sublist.cons₂ c (ih cs)

theorem unwrapFencedLangAux_sublist :
    ∀ (fuel : Nat) (s : Str), List.Sublist (unwrapFencedLangAux fuel s) s := by
  intro fuel
  induction fuel with
  | zero => intro s; exact List.Sublist.refl s
  | succ n ih =>
    intro s
    cases s with
    | nil => exact List.Sublist.refl _
    | cons c cs =>
      simp only [unwrapFencedLangAux]
      split
      · split
        · split
          next inner post heq =>
            obtain ⟨mid, hm⟩ := scanLit_decomp _ _ _ _ heq
            have htail : List.Sublist
                (((List.drop 3 (c :: cs)).dropWhile isWordChar).tail) (c :: cs) :=
              (List.tail_sublist _).trans
                ((List.dropWhile_sublist _).trans (List.drop_sublist _ _))
            rw [hm, List.append_assoc] at htail
            exact (List.Sublist.append_left
              ((ih post).trans (List.sublist_append_right mid post)) inner).trans htail
          next => exact List.Sublist.cons₂ c (ih cs)
        · exact List.Sublist.cons₂ c (ih cs)
      · exact List.Sublist.cons₂ c (ih cs)

theorem unwrapFencedPlainAux_sublist :
    ∀ (fuel : Nat) (s : Str), List.Sublist (unwrapFencedPlainAux fuel s) s := by
  intro fuel
  induction fuel with
  | zero => intro s; exact List.Sublist.refl s
  | succ n ih =>
    intro s
    cases s with
    | nil => exact List.Sublist.refl _
    | cons c cs =>
      simp only [unwrapFencedPlainAux]
      split
      · split
        next inner post heq =>
          obtain ⟨mid, hm⟩ := scanLit_decomp _ _ _ _ heq
          have hbody : List.Sublist
              (if (List.drop 3 (c :: cs)).head? = some '\n' then
                 (List.drop 3 (c :: cs)).tail
               else List.drop 3 (c :: cs)) (c :: cs) := by
            split
            · exact (List.tail_sublist _).trans (List.drop_sublist _ _)
            · exact List.drop_sublist _ _
          rw [hm, List.append_assoc] at hbody
          exact (List.Sublist.append_left
            ((ih post).trans (List.sublist_append_right mid post)) inner).trans hbody
        next => exact List.Sublist.cons₂ c (ih cs)
      · exact List.Sublist.cons₂ c (ih cs)

theorem findColonNl_sublist : ∀ (s r : Str), findColonNl s = some r → List.Sublist r s := by
  intro s
  induction s with
  | nil => intro r h; simp [findColonNl] at h
  | cons c cs ih =>
    intro r h
    simp only [findColonNl] at h
    split at h
    · split at h
      · simp only [Option.some.injEq] at h
        subst h
        exact List.Sublist.cons c (List.Sublist.refl cs)
      · exact List.Sublist.cons c (ih r h)
    · split at h
      · exact absurd h (by simp)
      · exact List.Sublist.cons c (ih r h)

theorem stripLeadInAux_sublist (lit : Str) :
    ∀ (fuel : Nat) (atLS : Bool) (s : Str),
      List.Sublist (stripLeadInAux lit fuel atLS s) s := by
  intro fuel
  induction fuel with
  | zero => intro _ s; exact List.Sublist.refl s
  | succ n ih =>
    intro atLS s
    cases s with
    | nil => exact List.Sublist.refl _
    | cons c cs =>
      simp only [stripLeadInAux]
      split
      · split
        next rest heq =>
          exact (ih true _).trans ((List.dropWhile_sublist _).trans
            ((findColonNl_sublist _ _ heq).trans (List.drop_sublist _ _)))
        next => exact List.Sublist.cons₂ c (ih _ cs)
      · exact List.Sublist.cons₂ c (ih _ cs)

theorem stripLitLineAux_sublist (lit : Str) :
    ∀ (fuel : Nat) (atLS : Bool) (s : Str),
      List.Sublist (stripLitLineAux lit fuel atLS s) s := by
  intro fuel
  induction fuel with
  | zero => intro _ s; exact List.Sublist.refl s
  | succ n ih =>
    intro atLS s
    cases s with
    | nil => exact List.Sublist.refl _
    | cons c cs =>
      simp only [stripLitLineAux]
      split
      · exact (ih true _).trans ((List.dropWhile_sublist _).trans (List.drop_sublist _ _))
      · exact List.Sublist.cons₂ c (ih _ cs)

theorem afterLastNl_sublist (s : Str) : List.Sublist (afterLastNl s) s := by
  unfold afterLastNl
  have h := List.Sublist.reverse (List.takeWhile_sublist (l := s.reverse) (· != '\n'))
  rw [List.reverse_reverse] at h
  exact h

theorem stripSepLineAux_sublist :
    ∀ (fuel : Nat) (atLS : Bool) (s : Str),
      List.Sublist (stripSepLineAux fuel atLS s) s := by
  intro fuel
  induction fuel with
  | zero => intro _ s; exact List.Sublist.refl s
  | succ n ih =>
    intro atLS s
    cases s with
    | nil => exact List.Sublist.refl _
    | cons c cs =>
      simp only [stripSepLineAux]
      split
      · split
        · refine (ih true _).trans ?_
          have h1 : List.Sublist
              (afterLastNl (((c :: cs).dropWhile pyIsSpace).dropWhile (· == '-')
                  |>.takeWhile pyIsSpace) ++
                (((c :: cs).dropWhile pyIsSpace).dropWhile (· == '-')
                  |>.dropWhile pyIsSpace))
              ((((c :: cs).dropWhile pyIsSpace).dropWhile (· == '-')
                  |>.takeWhile pyIsSpace) ++
                (((c :: cs).dropWhile pyIsSpace).dropWhile (· == '-')
                  |>.dropWhile pyIsSpace)) :=
            List.Sublist.append_right (afterLastNl_sublist _) _
          rw [List.takeWhile_append_dropWhile] at h1
          exact h1.trans ((List.dropWhile_sublist _).trans (List.dropWhile_sublist _))
        · exact List.Sublist.cons₂ c (ih _ cs)
      · exact List.Sublist.cons₂ c (ih _ cs)

theorem stripTrailSepAux_sublist :
    ∀ (fuel : Nat) (s : Str), List.Sublist (stripTrailSepAux fuel s) s := by
  intro fuel
  induction fuel with
  | zero => intro s; exact List.Sublist.refl s
  | succ n ih =>
    intro s
    cases s with
    | nil => exact List.Sublist.refl _
    | cons c cs =>
      simp only [stripTrailSepAux]
      split
      next hc =>
        rw [show c = '\n' from by simpa using hc]
        split
        · exact List.nil_sublist _
        · split
          · refine (ih _).trans ?_
            refine List.Sublist.cons₂ '\n' ?_
            have h1 : List.Sublist
                (afterLastNl ((cs.dropWhile pyIsSpace).dropWhile (· == '-')
                    |>.takeWhile pyIsSpace) ++
                  ((cs.dropWhile pyIsSpace).dropWhile (· == '-')
                    |>.dropWhile pyIsSpace))
                (((cs.dropWhile pyIsSpace).dropWhile (· == '-')
                    |>.takeWhile pyIsSpace) ++
                  ((cs.dropWhile pyIsSpace).dropWhile (· == '-')
                    |>.dropWhile pyIsSpace)) :=
              List.Sublist.append_right (afterLastNl_sublist _) _
            rw [List.takeWhile_append_dropWhile] at h1
            exact h1.trans ((List.dropWhile_sublist _).trans (List.dropWhile_sublist _))
          · exact List.Sublist.cons₂ '\n' (ih cs)
      next => exact List.Sublist.cons₂ c (ih cs)

theorem truncateTrail_sublist : ∀ (s : Str), List.Sublist (truncateTrail s) s := by
  intro s
  induction s with
  | nil => exact List.Sublist.refl _
  | cons c cs ih =>
    simp only [truncateTrail]
    split
    · exact List.nil_sublist _
    · exact List.Sublist.cons₂ c ih

theorem collapseNlAux_sublist :
    ∀ (fuel : Nat) (s : Str), List.Sublist (collapseNlAux fuel s) s := by
  intro fuel
  induction fuel with
  | zero => intro s; exact List.Sublist.refl s
  | succ n ih =>
    intro s
    cases s with
    | nil => exact List.Sublist.refl _
    | cons c cs =>
      simp only [collapseNlAux]
      split
      next hc =>
        rw [show c = '\n' from by simpa using hc]
        split
        next hrun =>
          have hcs : cs.takeWhile (· == '\n') ++ cs.dropWhile (· == '\n') = cs :=
            List.takeWhile_append_dropWhile _ _
          cases hrw : cs.takeWhile (· == '\n') with
          | nil => rw [hrw] at hrun; simp at hrun
          | cons a run' =>
            have ha : a = '\n' := by
              have : a ∈ cs.takeWhile (· == '\n') := by rw [hrw]; exact List.mem_cons_self _ _
              simpa using List.mem_takeWhile_imp this
            subst ha
            have h4 : ('\n' :: run') ++ cs.dropWhile (· == '\n') = cs := by
              rw [← hrw]; exact hcs
            have h2 : List.Sublist ('\n' :: collapseNlAux n (cs.dropWhile (· == '\n')))
                (('\n' :: run') ++ cs.dropWhile (· == '\n')) :=
              List.Sublist.cons₂ '\n'
                ((ih _).trans (List.sublist_append_right run' _))
            rw [h4] at h2
            exact List.Sublist.cons₂ '\n' h2
        · have hcs : cs.takeWhile (· == '\n') ++ cs.dropWhile (· == '\n') = cs :=
            List.takeWhile_append_dropWhile _ _
          have h5 := List.Sublist.append_left
            (ih (cs.dropWhile (· == '\n'))) (cs.takeWhile (· == '\n'))
          rw [hcs] at h5
          exact List.Sublist.cons₂ '\n' h5
      next => exact List.Sublist.cons₂ c (ih cs)

theorem removeTagged_sublist (op cl s : Str) : List.Sublist (removeTagged op cl s) s :=
  removeTaggedAux_sublist op cl (s.length + 1) s

theorem unwrapFencedLang_sublist (s : Str) : List.Sublist (unwrapFencedLang s) s :=
  unwrapFencedLangAux_sublist (s.length + 1) s

theorem unwrapFencedPlain_sublist (s : Str) : List.Sublist (unwrapFencedPlain s) s :=
  unwrapFencedPlainAux_sublist (s.length + 1) s

theorem stripLeadIn_sublist (lit s : Str) : List.Sublist (stripLeadIn lit s) s :=
  stripLeadInAux_sublist lit (s.length + 1) true s

theorem stripLitLine_sublist (lit s : Str) : List.Sublist (stripLitLine lit s) s :=
  stripLitLineAux_sublist lit (s.length + 1) true s

theorem stripSepLine_sublist (s : Str) : List.Sublist (stripSepLine s) s :=
  stripSepLineAux_sublist (s.length + 1) true s

theorem stripTrailSep_sublist (s : Str) : List.Sublist (stripTrailSep s) s :=
  stripTrailSepAux_sublist (s.length + 1) s

theorem collapseNl_sublist (s : Str) : List.Sublist (collapseNl s) s :=
  collapseNlAux_sublist (s.length + 1) s

theorem foldl_removeTagged_sublist :
    ∀ (tags : List Str) (s : Str),
      List.Sublist
        (tags.foldl
          (fun acc t =>
            removeTagged (('<' :: t) ++ ['>']) (('<' :: '/' :: t) ++ ['>']) acc) s)
        s := by
  intro tags
  induction tags with
  | nil => intro s; exact List.Sublist.refl s
  | cons t ts ih =>
    intro s
    simp only [List.foldl_cons]
    exact (ih _).trans (removeTagged_sublist _ _ s)

/-- Every character of the cleaned content already occurs in the raw input,
in order: `clean_ai_response` only ever deletes characters. -/
theorem clean_ai_response_sublist (s : Str) : List.Sublist (clean_ai_response s) s := by
  unfold clean_ai_response
  exact (pyStrip_sublist _).trans ((collapseNl_sublist _).trans
    ((truncateTrail_sublist _).trans ((stripLeadIn_sublist _ _).trans
    ((stripLeadIn_sublist _ _).trans ((stripTrailSep_sublist _).trans
    ((stripSepLine_sublist _).trans ((stripLitLine_sublist _ _).trans
    ((stripLitLine_sublist _ _).trans ((stripLitLine_sublist _ _).trans
    ((stripLitLine_sublist _ _).trans ((stripLeadIn_sublist _ _).trans
    ((stripLeadIn_sublist _ _).trans ((unwrapFencedPlain_sublist _).trans
    ((unwrapFencedLang_sublist _).trans
      (foldl_removeTagged_sublist thinkingTagNames s)))))))))))))))

theorem mem_of_head? {l : Str} {a : Char} (h : l.head? = some a) : a ∈ l := by
  cases l with
  | nil => simp at h
  | cons c cs => simp at h; subst h; exact List.mem_cons_self _ _

theorem fence_eq : fence = [btChar, btChar, btChar] := by decide

theorem startsWith_fence_head {c : Char} {cs : Str}
    (h : startsWith fence (c :: cs) = true) : c = btChar := by
  rw [fence_eq] at h
  rcases (startsWith_cons_iff _ _ _ _).mp h with ⟨h1, _⟩
  exact h1.symm

/-- With no `<` in the text, a `<tag>.*?</tag>` substitution does nothing. -/
theorem removeTaggedAux_id (op cl : Str) (hop : op.head? = some '<') :
    ∀ (fuel : Nat) (s : Str), '<' ∉ s → removeTaggedAux op cl fuel s = s := by
  intro fuel
  induction fuel with
  | zero => intro s _; rfl
  | succ n ih =>
    intro s hs
    cases s with
    | nil => rfl
    | cons c cs =>
      have hne : ¬ startsWithCI op (c :: cs) = true := by
        intro hsw
        cases op with
        | nil => simp at hop
        | cons o os =>
          simp only [List.head?] at hop
          have ho : o = '<' := by simpa using hop
          subst ho
          have := charCIEq_nonletter (x := '<') (by left; decide) c
            (startsWithCI_head '<' os c cs hsw)
          exact hs (this ▸ List.mem_cons_self c cs)
      simp only [removeTaggedAux]
      rw [if_neg hne, ih cs (fun hm => hs (List.mem_cons_of_mem c hm))]

/-- With no backtick in the text, fence unwrapping does nothing. -/
theorem unwrapFencedLangAux_id :
    ∀ (fuel : Nat) (s : Str), btChar ∉ s → unwrapFencedLangAux fuel s = s := by
  intro fuel
  induction fuel with
  | zero => intro s _; rfl
  | succ n ih =>
    intro s hs
    cases s with
    | nil => rfl
    | cons c cs =>
      have hne : ¬ startsWith fence (c :: cs) = true := by
        intro hsw
        exact hs ((startsWith_fence_head hsw) ▸ List.mem_cons_self c cs)
      simp only [unwrapFencedLangAux]
      rw [if_neg hne, ih cs (fun hm => hs (List.mem_cons_of_mem c hm))]

theorem unwrapFencedPlainAux_id :
    ∀ (fuel : Nat) (s : Str), btChar ∉ s → unwrapFencedPlainAux fuel s = s := by
  intro fuel
  induction fuel with
  | zero => intro s _; rfl
  | succ n ih =>
    intro s hs
    cases s with
    | nil => rfl
    | cons c cs =>
      have hne : ¬ startsWith fence (c :: cs) = true := by
        intro hsw
        exact hs ((startsWith_fence_head hsw) ▸ List.mem_cons_self c cs)
      simp only [unwrapFencedPlainAux]
      rw [if_neg hne, ih cs (fun hm => hs (List.mem_cons_of_mem c hm))]

/-- With no newline in the text, the `.*?:\n` scan cannot succeed. -/
theorem findColonNl_none : ∀ (s : Str), '\n' ∉ s → findColonNl s = none := by
  intro s
  induction s with
  | nil => intro _; rfl
  | cons c cs ih =>
    intro hs
    simp only [findColonNl]
    split
    · split
      next hh => exact absurd (List.mem_cons_of_mem c (mem_of_head? hh)) hs
      next => exact ih (fun hm => hs (List.mem_cons_of_mem c hm))
    · split
      next hc => exact absurd (hc ▸ List.mem_cons_self c cs) hs
      next => exact ih (fun hm => hs (List.mem_cons_of_mem c hm))

theorem stripLeadInAux_id (lit : Str) :
    ∀ (fuel : Nat) (atLS : Bool) (s : Str), '\n' ∉ s →
      stripLeadInAux lit fuel atLS s = s := by
  intro fuel
  induction fuel with
  | zero => intro _ s _; rfl
  | succ n ih =>
    intro atLS s hs
    cases s with
    | nil => rfl
    | cons c cs =>
      have hdrop : '\n' ∉ List.drop lit.length (c :: cs) :=
        fun hm => hs (List.drop_subset _ _ hm)
      have hcs : '\n' ∉ cs := fun hm => hs (List.mem_cons_of_mem c hm)
      simp only [stripLeadInAux]
      rw [findColonNl_none _ hdrop]
      split
      · show c :: stripLeadInAux lit n (c == '\n') cs = c :: cs
        rw [ih _ cs hcs]
      · rw [ih _ cs hcs]

theorem stripLitLineAux_id (lit : Str) :
    ∀ (fuel : Nat) (atLS : Bool) (s : Str), '\n' ∉ s →
      stripLitLineAux lit fuel atLS s = s := by
  intro fuel
  induction fuel with
  | zero => intro _ s _; rfl
  | succ n ih =>
    intro atLS s hs
    cases s with
    | nil => rfl
    | cons c cs =>
      have hcs : '\n' ∉ cs := fun hm => hs (List.mem_cons_of_mem c hm)
      simp only [stripLitLineAux]
      split
      next h =>
        exfalso
        simp only [Bool.and_eq_true, decide_eq_true_eq] at h
        exact hs (List.drop_subset _ _ (mem_of_head? h.2))
      next => rw [ih _ cs hcs]

theorem stripSepLineAux_id :
    ∀ (fuel : Nat) (atLS : Bool) (s : Str), '\n' ∉ s →
      stripSepLineAux fuel atLS s = s := by
  intro fuel
  induction fuel with
  | zero => intro _ s _; rfl
  | succ n ih =>
    intro atLS s hs
    cases s with
    | nil => rfl
    | cons c cs =>
      have hcs : '\n' ∉ cs := fun hm => hs (List.mem_cons_of_mem c hm)
      simp only [stripSepLineAux]
      split
      · split
        next h =>
          exfalso
          simp only [Bool.and_eq_true] at h
          have h2 : '\n' ∈
              ((((c :: cs).dropWhile pyIsSpace).dropWhile (· == '-')).takeWhile pyIsSpace) := by
            simpa using h.2
          exact hs ((List.dropWhile_sublist _).subset
            ((List.dropWhile_sublist _).subset ((List.takeWhile_sublist _).subset h2)))
        next => rw [ih _ cs hcs]
      · rw [ih _ cs hcs]

theorem stripTrailSepAux_id :
    ∀ (fuel : Nat) (s : Str), '\n' ∉ s → stripTrailSepAux fuel s = s := by
  intro fuel
  induction fuel with
  | zero => intro s _; rfl
  | succ n ih =>
    intro s hs
    cases s with
    | nil => rfl
    | cons c cs =>
      have hcs : '\n' ∉ cs := fun hm => hs (List.mem_cons_of_mem c hm)
      have hcne : ¬ (c == '\n') = true := by
        intro hcc
        have : c = '\n' := by simpa using hcc
        subst this
        exact hs (List.mem_cons_self _ _)
      simp only [stripTrailSepAux]
      rw [if_neg hcne, ih cs hcs]

theorem truncateTrail_id : ∀ (s : Str), '\n' ∉ s → truncateTrail s = s := by
  intro s
  induction s with
  | nil => intro _; rfl
  | cons c cs ih =>
    intro hs
    have hcne : ¬ (c == '\n' && cs.head? = some '\n' && cueAt cs.tail) = true := by
      intro h
      simp only [Bool.and_eq_true] at h
      have : c = '\n' := by simpa using h.1.1
      subst this
      exact hs (List.mem_cons_self _ _)
    simp only [truncateTrail]
    rw [if_neg hcne, ih (fun hm => hs (List.mem_cons_of_mem c hm))]

theorem collapseNlAux_id :
    ∀ (fuel : Nat) (s : Str), '\n' ∉ s → collapseNlAux fuel s = s := by
  intro fuel
  induction fuel with
  | zero => intro s _; rfl
  | succ n ih =>
    intro s hs
    cases s with
    | nil => rfl
    | cons c cs =>
      have hcne : ¬ (c == '\n') = true := by
        intro hcc
        have : c = '\n' := by simpa using hcc
        subst this
        exact hs (List.mem_cons_self _ _)
      simp only [collapseNlAux]
      rw [if_neg hcne, ih cs (fun hm => hs (List.mem_cons_of_mem c hm))]

theorem removeTagged_id (op cl s : Str) (hop : op.head? = some '<') (hs : '<' ∉ s) :
    removeTagged op cl s = s :=
  removeTaggedAux_id op cl hop (s.length + 1) s hs

theorem foldl_removeTagged_id (tags : List Str) (s : Str) (hs : '<' ∉ s) :
    tags.foldl
      (fun acc t =>
        removeTagged (('<' :: t) ++ ['>']) (('<' :: '/' :: t) ++ ['>']) acc) s = s := by
  induction tags with
  | nil => rfl
  | cons t ts ih =>
    simp only [List.foldl_cons]
    rw [removeTagged_id (('<' :: t) ++ ['>']) (('<' :: '/' :: t) ++ ['>']) s rfl hs]
    exact ih

theorem dropWhile_head_false {p : Char → Bool} :
    ∀ (l : Str) (c : Char) (t : Str), l.dropWhile p = c :: t → p c = false := by
  intro l
  induction l with
  | nil => intro c t h; simp [List.dropWhile] at h
  | cons a as ih =>
    intro c t h
    rw [List.dropWhile_cons] at h
    split at h
    · exact ih c t h
    next hpa =>
      cases h
      exact Bool.not_eq_true _ ▸ (by simpa using hpa)

theorem dropWhile_decomp (p : Char → Bool) :
    ∀ (l : Str), ∃ pre, l = pre ++ l.dropWhile p := by
  intro l
  induction l with
  | nil => exact ⟨[], rfl⟩
  | cons a as ih =>
    rw [List.dropWhile_cons]
    split
    · obtain ⟨pre, hp⟩ := ih
      exact ⟨a :: pre, by rw [List.cons_append, ← hp]⟩
    · exact ⟨[], rfl⟩

theorem dropWhile_dropWhile (p : Char → Bool) (l : Str) :
    (l.dropWhile p).dropWhile p = l.dropWhile p := by
  cases h : l.dropWhile p with
  | nil => rfl
  | cons c t =>
    rw [List.dropWhile_cons, dropWhile_head_false l c t h]
    simp

theorem pyStrip_idem (s : Str) : pyStrip (pyStrip s) = pyStrip s := by
  have key : (pyStrip s).dropWhile pyIsSpace = pyStrip s := by
    cases hB : ((s.dropWhile pyIsSpace).reverse.dropWhile pyIsSpace).reverse with
    | nil => rw [show pyStrip s = [] from hB]; rfl
    | cons b bs =>
      obtain ⟨pre, hpre⟩ := dropWhile_decomp pyIsSpace (s.dropWhile pyIsSpace).reverse
      have hA : s.dropWhile pyIsSpace
          = ((s.dropWhile pyIsSpace).reverse.dropWhile pyIsSpace).reverse
            ++ pre.reverse := by
        have := congrArg List.reverse hpre
        rw [List.reverse_reverse, List.reverse_append] at this
        exact this
      rw [hB] at hA
      have hpb : pyIsSpace b = false := dropWhile_head_false s b _ (by rw [hA]; rfl)
      rw [show pyStrip s = b :: bs from hB, List.dropWhile_cons, hpb]
      simp
  show ((((pyStrip s).dropWhile pyIsSpace).reverse).dropWhile pyIsSpace).reverse = pyStrip s
  rw [key]
  show (((((s.dropWhile pyIsSpace).reverse.dropWhile pyIsSpace).reverse).reverse).dropWhile
    pyIsSpace).reverse = pyStrip s
  rw [List.reverse_reverse, dropWhile_dropWhile]
  rfl

theorem unwrapFencedLang_id (s : Str) (hs : btChar ∉ s) : unwrapFencedLang s = s :=
  unwrapFencedLangAux_id (s.length + 1) s hs

theorem unwrapFencedPlain_id (s : Str) (hs : btChar ∉ s) : unwrapFencedPlain s = s :=
  unwrapFencedPlainAux_id (s.length + 1) s hs

theorem stripLeadIn_id (lit s : Str) (hs : '\n' ∉ s) : stripLeadIn lit s = s :=
  stripLeadInAux_id lit (s.length + 1) true s hs

theorem stripLitLine_id (lit s : Str) (hs : '\n' ∉ s) : stripLitLine lit s = s :=
  stripLitLineAux_id lit (s.length + 1) true s hs

theorem stripSepLine_id (s : Str) (hs : '\n' ∉ s) : stripSepLine s = s :=
  stripSepLineAux_id (s.length + 1) true s hs

theorem stripTrailSep_id (s : Str) (hs : '\n' ∉ s) : stripTrailSep s = s :=
  stripTrailSepAux_id (s.length + 1) s hs

theorem collapseNl_id (s : Str) (hs : '\n' ∉ s) : collapseNl s = s :=
  collapseNlAux_id (s.length + 1) s hs

/-- On text with no newline, no `<` and no backtick, every cleaning stage but
the final strip is the identity: the whole pipeline reduces to `strip()`. -/
theorem clean_ai_response_no_markers (s : Str)
    (hn : '\n' ∉ s) (hlt : '<' ∉ s) (hbt : btChar ∉ s) :
    clean_ai_response s = pyStrip s := by
  unfold clean_ai_response
  rw [foldl_removeTagged_id thinkingTagNames s hlt, unwrapFencedLang_id s hbt,
    unwrapFencedPlain_id s hbt, stripLeadIn_id _ s hn, stripLeadIn_id _ s hn,
    stripLitLine_id _ s hn, stripLitLine_id _ s hn, stripLitLine_id _ s hn,
    stripLitLine_id _ s hn, stripSepLine_id s hn, stripTrailSep_id s hn,
    stripLeadIn_id _ s hn, stripLeadIn_id _ s hn, truncateTrail_id s hn,
    collapseNl_id s hn]

theorem foldl_dangerStep (cl : Str) :
    ∀ (table : List (Str × Str)) (acc : CommandCheck),
      table.foldl (dangerStep cl) acc =
        { valid := acc.valid,
          safe := acc.safe && !(table.any (fun pw => subOccurs (pyLower pw.1) cl)),
          warnings := acc.warnings
            ++ (table.filter (fun pw => subOccurs (pyLower pw.1) cl)).map Prod.snd,
          requires_sudo := acc.requires_sudo } := by
  intro table
  induction table with
  | nil => intro acc; cases acc; simp
  | cons pw rest ih =>
    intro acc
    simp only [List.foldl_cons, List.any_cons, List.filter_cons]
    rw [ih]
    unfold dangerStep
    split
    next h => cases acc; simp [h]
    next h =>
      cases acc
      simp only [Bool.of_not_eq_true (by simpa using h)]
      simp [show subOccurs (pyLower pw.1) cl = false from by simpa using h]

theorem validate_command_eq (cmd : Str) :
    validate_command cmd =
      { valid := true,
        safe := !(dangerous_patterns.any fun pw => subOccurs (pyLower pw.1) (pyLower cmd)),
        warnings :=
          (dangerous_patterns.filter
              fun pw => subOccurs (pyLower pw.1) (pyLower cmd)).map Prod.snd
            ++ (if startsWith (("sudo ").toList) (pyStrip cmd)
                  || startsWith (("su ").toList) (pyStrip cmd) then [sudoWarnStr] else [])
            ++ (if subOccurs ['>'] cmd && !subOccurs ['>', '>'] cmd then [overwriteWarnStr]
                else []),
        requires_sudo :=
          startsWith (("sudo ").toList) (pyStrip cmd)
            || startsWith (("su ").toList) (pyStrip cmd) } := by
  unfold validate_command sudoStep overwriteStep
  rw [foldl_dangerStep]
  split <;> split <;> simp_all [List.append_assoc]

theorem angleAllAux_nil (w : Str) :
    ∀ (fuel : Nat) (s : Str), '<' ∉ s → angleAllAux w fuel s = [] := by
  intro fuel
  induction fuel with
  | zero => intro s _; rfl
  | succ n ih =>
    intro s hs
    cases s with
    | nil => rfl
    | cons c cs =>
      have hcne : ¬ (c == '<') = true := by
        intro hcc
        have : c = '<' := by simpa using hcc
        subst this
        exact hs (List.mem_cons_self _ _)
      simp only [angleAllAux]
      rw [if_neg hcne]
      exact ih cs (fun hm => hs (List.mem_cons_of_mem c hm))

theorem bracketAllAux_nil :
    ∀ (fuel : Nat) (s : Str), '[' ∉ s → bracketAllAux fuel s = [] := by
  intro fuel
  induction fuel with
  | zero => intro s _; rfl
  | succ n ih =>
    intro s hs
    cases s with
    | nil => rfl
    | cons c cs =>
      have hcne : ¬ startsWithCI brOpen (c :: cs) = true := by
        intro hsw
        rw [show brOpen = '[' :: (("thinking]").toList) from by decide] at hsw
        have hc := charCIEq_nonletter (x := '[') (by decide) c
          (startsWithCI_head _ _ _ _ hsw)
        subst hc
        exact hs (List.mem_cons_self _ _)
      simp only [bracketAllAux]
      rw [if_neg hcne]
      exact ih cs (fun hm => hs (List.mem_cons_of_mem c hm))

theorem extract_code_blocks_aux_nil :
    ∀ (fuel : Nat) (s : Str), btChar ∉ s → extract_code_blocks_aux fuel s = [] := by
  intro fuel
  induction fuel with
  | zero => intro s _; rfl
  | succ n ih =>
    intro s hs
    cases s with
    | nil => rfl
    | cons c cs =>
      have hcne : ¬ startsWith fence (c :: cs) = true := by
        intro hsw
        exact hs ((startsWith_fence_head hsw) ▸ List.mem_cons_self c cs)
      simp only [extract_code_blocks_aux]
      rw [if_neg hcne]
      exact ih cs (fun hm => hs (List.mem_cons_of_mem c hm))

theorem shellCmd_none (line : Str) (h : '$' ∉ line) : shellCmd line = none := by
  unfold shellCmd
  split
  next rest => exact absurd (List.mem_cons_self '$' rest) h
  next => rfl

theorem pySplitNl_mem : ∀ (s : Str) (l : Str), l ∈ pySplitNl s → ∀ x ∈ l, x ∈ s := by
  intro s
  induction s with
  | nil =>
    intro l hl x hx
    simp [pySplitNl] at hl
    subst hl
    simp at hx
  | cons c cs ih =>
    intro l hl x hx
    simp only [pySplitNl] at hl
    split at hl
    next hrec =>
      simp at hl
      subst hl
      have : x = c := by simpa using hx
      subst this
      exact List.mem_cons_self _ _
    next h0 t hrec =>
      split at hl
      · rcases List.mem_cons.mp hl with rfl | hl'
        · simp at hx
        · exact List.mem_cons_of_mem c (ih l (by rw [hrec]; exact hl') x hx)
      · rcases List.mem_cons.mp hl with rfl | hl'
        · rcases List.mem_cons.mp hx with rfl | hx'
          · exact List.mem_cons_self _ _
          · exact List.mem_cons_of_mem c
              (ih h0 (by rw [hrec]; exact List.mem_cons_self _ _) x hx')
        · exact List.mem_cons_of_mem c
            (ih l (by rw [hrec]; exact List.mem_cons_of_mem _ hl') x hx)

theorem extract_thoughts_nil (s : Str) (h1 : '<' ∉ s) (h2 : '[' ∉ s) :
    extract_thoughts s = [] := by
  unfold extract_thoughts angleAll bracketAll
  rw [angleAllAux_nil _ _ s h1, angleAllAux_nil _ _ s h1, angleAllAux_nil _ _ s h1,
    bracketAllAux_nil _ s h2]
  rfl

theorem extract_code_blocks_nil (s : Str) (h : btChar ∉ s) :
    extract_code_blocks s = [] :=
  extract_code_blocks_aux_nil (s.length + 1) s h

theorem extract_commands_nil (s : Str) (hcolon : ':' ∉ s) (hdollar : '$' ∉ s) :
    extract_commands s = [] := by
  unfold extract_commands
  have hfilter : (pySplitNl s).filter
      (fun line => startsWith execMarker (pyStrip line)) = [] := by
    rw [List.filter_eq_nil_iff]
    intro line hline hsw
    exact hcolon (pySplitNl_mem s line hline ':'
      (pyStrip_mem line ':' (mem_of_startsWith _ _ hsw ':' (by decide))))
  have hmap : (pySplitNl s).filterMap shellCmd = [] := by
    rw [List.filterMap_eq_nil_iff]
    intro line hline
    exact shellCmd_none line (fun hm => hdollar (pySplitNl_mem s line hline '$' hm))
  simp [hfilter, hmap]

theorem joinNl_nil : joinNl [] = [] := by
  simp [joinNl, List.intercalate]

/-- With none of the marker characters present, parsing yields at most a
single Text segment holding the stripped input. -/
theorem parse_response_no_markers (s : Str)
    (h1 : '<' ∉ s) (h2 : '[' ∉ s) (h3 : btChar ∉ s) (h4 : '$' ∉ s) (h5 : ':' ∉ s) :
    parse_response s
      = if (pyStrip s).isEmpty then [] else [Segment.text (pyStrip s)] := by
  unfold parse_response
  simp only [extract_thoughts_nil s h1 h2, joinNl_nil, List.isEmpty_nil, if_true,
    extract_code_blocks_nil s h3, extract_commands_nil s h5 h4, List.foldl_nil,
    List.map_nil, List.nil_append]

theorem clean_for_display_no_markers (s : Str)
    (h1 : '<' ∉ s) (h2 : '[' ∉ s) (h3 : btChar ∉ s) (h4 : '$' ∉ s) (h5 : ':' ∉ s) :
    clean_for_display s true = pyStrip s := by
  unfold clean_for_display
  rw [parse_response_no_markers s h1 h2 h3 h4 h5]
  by_cases he : (pyStrip s).isEmpty = true
  · rw [if_pos he]
    simp only [List.filterMap_nil]
    rw [List.isEmpty_iff.mp he]
    rfl
  · rw [if_neg he]
    simp [segDisplay, List.intercalate]

/-! ## Claim theorems -/

set_option maxRecDepth 10000
set_option maxHeartbeats 1000000

/-- C1 (amended): in `FileHandler.edit_file` of src/ai_cli/file_handler.py the
claimed invariant does hold — content is written only when
`validate_cleaned_content` returned valid, and on an invalid result the write
is aborted and the raw response surfaced.  (The claim as stated over every
file-edit operation is false: see the counterexample, `AIAssistant.edit_file`
writes without validating.) -/
theorem C1_fh_edit_only_writes_validated :
    ∀ (original raw ext : Str),
      (∀ c, fh_edit_file original raw ext = EditOutcome.written c →
        (validate_cleaned_content original c ext).1 = true)
      ∧ ((validate_cleaned_content original (clean_ai_response raw) ext).1 = false →
          fh_edit_file original raw ext = EditOutcome.aborted raw) := by
  intro o r e
  constructor
  · intro c hc
    by_cases h : (validate_cleaned_content o (clean_ai_response r) e).1 = true
    · have hw : fh_edit_file o r e = EditOutcome.written (clean_ai_response r) := by
        unfold fh_edit_file
        rw [if_pos h]
      rw [hw] at hc
      simp only [EditOutcome.written.injEq] at hc
      rw [← hc]
      exact h
    · have ha : fh_edit_file o r e = EditOutcome.aborted r := by
        unfold fh_edit_file
        rw [if_neg h]
      rw [ha] at hc
      simp at hc
  · intro hv
    unfold fh_edit_file
    rw [if_neg (by rw [hv]; simp)]

/-- C1 witness: a 100-character original with the two-character reply `hi`
fails validation, so `FileHandler.edit_file` aborts and surfaces the raw
reply. -/
theorem C1_witness :
    fh_edit_file (List.replicate 100 'a') (("hi").toList) ((".py").toList)
      = EditOutcome.aborted (("hi").toList) :=
  (C1_fh_edit_only_writes_validated (List.replicate 100 'a') (("hi").toList)
    ((".py").toList)).2 (by decide)

/-- C1 counterexample: `AIAssistant.edit_file` (src/ai_cli/assistant.py:282-341)
overwrites the target with the cleaned reply `hi` although validating that
content against the 100-character original returns valid == false — the claim
"the target file is overwritten only when validation returned valid == true"
fails on this edit path (it performs no validation at all). -/
theorem C1_claim_counterexample :
    assistant_edit_file (List.replicate 100 'a') (("hi").toList) = some (("hi").toList)
      ∧ (validate_cleaned_content (List.replicate 100 'a') (("hi").toList)
          ((".py").toList)).1 = false := by
  exact ⟨by decide, by decide⟩

/-- C2: `validate_cleaned_content` returns valid == false exactly when the
cleaned content is shorter than 10 characters (which subsumes emptiness) or
shorter than a tenth of the original; validity never depends on the file
type, so the missing-keyword check (a printed warning) cannot reject; and in
particular any original of at least 100 characters with a cleaned length
under 10% of it is rejected. -/
theorem C2_validation_rule :
    ∀ (original cleaned ft ft' : Str),
      ((validate_cleaned_content original cleaned ft).1 = false ↔
        cleaned.length < 10 ∨ 10 * cleaned.length < original.length)
      ∧ (validate_cleaned_content original cleaned ft).1
          = (validate_cleaned_content original cleaned ft').1
      ∧ (100 ≤ original.length → 10 * cleaned.length < original.length →
          (validate_cleaned_content original cleaned ft).1 = false) := by
  intro o c ft ft'
  have hiff : (validate_cleaned_content o c ft).1 = false ↔
      c.length < 10 ∨ 10 * c.length < o.length := by
    unfold validate_cleaned_content
    split
    next h =>
      simp only [Bool.or_eq_true, List.isEmpty_iff, decide_eq_true_eq] at h
      constructor
      · intro _
        left
        rcases h with h | h
        · rw [h]; simp
        · exact h
      · intro _; rfl
    next h =>
      simp only [Bool.or_eq_true, List.isEmpty_iff, decide_eq_true_eq, not_or] at h
      split
      next h2 =>
        constructor
        · intro _; right; exact h2
        · intro _; rfl
      next h2 =>
        constructor
        · intro hfalse; exact absurd hfalse (by simp)
        · intro hor
          exfalso
          rcases hor with hl | hl
          · exact h.2 hl
          · exact h2 hl
  exact ⟨hiff, rfl, fun _ hred => hiff.mpr (Or.inr hred)⟩

/-- C2 witness: a 100-character original with cleaned content `hi` is
rejected. -/
theorem C2_witness :
    (validate_cleaned_content (List.replicate 100 'a') (("hi").toList)
      ((".py").toList)).1 = false :=
  (C2_validation_rule (List.replicate 100 'a') (("hi").toList) ((".py").toList)
    ((".js").toList)).2.2 (by decide) (by decide)

/-- C3 counterexample: for the raw response `"a\n```python\n x\n```"` the
display concatenation (thought segments included) contains the character `x`
twice while the raw input contains it once — the fenced block's stripped body
is emitted as a Code segment while the original fence text survives in the
Text segment (the exact-substring replace misses it), so the segment list is
not a reconstruction of the input's non-marker characters: any
"only marker syntax is removed, nothing else" reading bounds each character's
multiplicity by its multiplicity in the raw input. -/
theorem C3_claim_counterexample :
    ((clean_for_display (("a\n```python\n x\n```").toList) true).count 'x' = 2)
      ∧ ((("a\n```python\n x\n```").toList).count 'x' = 1) := by
  constructor <;> decide

/-- C3 (amended): the no-information-loss round trip holds only for
marker-free responses: when the raw text contains none of the characters
`<`, `[`, backtick, `$`, `:` (so no thought tag, fence, shell line or
EXECUTE_COMMAND line can match), `parse_response` yields one Text segment
holding the stripped input (or nothing when blank) and display cleaning with
thoughts included returns exactly the input trimmed of leading and trailing
whitespace.  In general the concatenation can lose whitespace, reorder
content, and duplicate fenced blocks. -/
theorem C3_no_marker_roundtrip :
    ∀ s : Str, '<' ∉ s → '[' ∉ s → btChar ∉ s → '$' ∉ s → ':' ∉ s →
      parse_response s
          = (if (pyStrip s).isEmpty then [] else [Segment.text (pyStrip s)])
        ∧ clean_for_display s true = pyStrip s :=
  fun s h1 h2 h3 h4 h5 =>
    ⟨parse_response_no_markers s h1 h2 h3 h4 h5,
      clean_for_display_no_markers s h1 h2 h3 h4 h5⟩

/-- C3 witness: the marker-free response `hello world` parses to a single
Text segment and round-trips through display cleaning. -/
theorem C3_witness :
    parse_response (("hello world").toList)
        = [Segment.text (("hello world").toList)]
      ∧ clean_for_display (("hello world").toList) true = ("hello world").toList := by
  have h := C3_no_marker_roundtrip (("hello world").toList)
    (by decide) (by decide) (by decide) (by decide) (by decide)
  refine ⟨?_, ?_⟩
  · rw [h.1]; decide
  · rw [h.2]; decide

/-- C4 counterexample: the input `"abc```def"` has a lone fence with no
closing fence; neither unwrapping pass can match it, so the cleaned output
still contains the ``` sequence — contradicting "the written file content
never contains a ``` sequence". -/
theorem C4_claim_counterexample :
    subOccurs fence (clean_ai_response (("abc```def").toList)) = true := by decide

/-- C4 (amended): a well-formed fenced block is unwrapped to its inner
content, and cleaning never creates a backtick (its output is a sublist of
its input), so the output is guaranteed fence-free whenever the input
contains no backtick; but an unmatched ``` fence survives cleaning. -/
theorem C4_fence_unwrapping :
    (∀ s : Str, btChar ∉ s → subOccurs fence (clean_ai_response s) = false)
      ∧ clean_ai_response (("```python\nX = 1\nY = 2\n```").toList)
          = ("X = 1\nY = 2").toList := by
  constructor
  · intro s hs
    by_contra hocc
    rw [Bool.not_eq_false] at hocc
    have hb : btChar ∈ clean_ai_response s :=
      subOccurs_mem fence _ hocc btChar (by rw [fence_eq]; exact List.mem_cons_self _ _)
    exact hs ((clean_ai_response_sublist s).subset hb)
  · decide

/-- C4 witness: a backtick-free input cleans to fence-free output. -/
theorem C4_witness :
    subOccurs fence (clean_ai_response (("hello world").toList)) = false :=
  C4_fence_unwrapping.1 (("hello world").toList) (by decide)

/-- C5 counterexample: deleting the inner thought block of
`"<thin<thinking>A</thinking>king>B</thinking>"` splices the surrounding text
into the new thought block `<thinking>B</thinking>`, which only a second
cleaning pass removes — so cleaning its own output again does not yield the
same output. -/
theorem C5_claim_counterexample :
    clean_ai_response (clean_ai_response
        (("<thin<thinking>A</thinking>king>B</thinking>").toList))
      ≠ clean_ai_response (("<thin<thinking>A</thinking>king>B</thinking>").toList) := by
  decide

/-- C5 (amended): file-write cleaning is not idempotent in general (see the
counterexample); it is idempotent on inputs free of the marker characters
that the stages react to — for any input with no newline, no `<` and no
backtick every stage except the final strip is the identity, and stripping
is idempotent. -/
theorem C5_idempotent_no_markers :
    ∀ s : Str, '\n' ∉ s → '<' ∉ s → btChar ∉ s →
      clean_ai_response (clean_ai_response s) = clean_ai_response s := by
  intro s h1 h2 h3
  rw [clean_ai_response_no_markers s h1 h2 h3]
  rw [clean_ai_response_no_markers (pyStrip s) (fun hm => h1 (pyStrip_mem s _ hm))
    (fun hm => h2 (pyStrip_mem s _ hm)) (fun hm => h3 (pyStrip_mem s _ hm))]
  exact pyStrip_idem s

/-- C5 witness: cleaning is idempotent on a marker-free input. -/
theorem C5_witness :
    clean_ai_response (clean_ai_response ((" hello world ").toList))
      = clean_ai_response ((" hello world ").toList) :=
  C5_idempotent_no_markers ((" hello world ").toList) (by decide) (by decide) (by decide)

/-- C6: the input `"Do X.\nEXECUTE_COMMAND: rm -rf /tmp/x\nDone."` yields
exactly the one candidate `rm -rf /tmp/x`, which is classified unsafe with a
non-empty warning list; in general any command containing a dangerous table
pattern (compared lower-cased) is marked `safe == false` with that pattern's
warning in the list, and the warning list is exactly one warning per
matching table entry followed by the optional sudo and overwrite warnings. -/
theorem C6_command_extraction_and_classification :
    (parse_commands (("Do X.\nEXECUTE_COMMAND: rm -rf /tmp/x\nDone.").toList)
        = [("rm -rf /tmp/x").toList]
      ∧ (validate_command (("rm -rf /tmp/x").toList)).safe = false
      ∧ (validate_command (("rm -rf /tmp/x").toList)).warnings ≠ [])
    ∧ (∀ (cmd p w : Str), (p, w) ∈ dangerous_patterns →
        subOccurs (pyLower p) (pyLower cmd) = true →
        (validate_command cmd).safe = false ∧ w ∈ (validate_command cmd).warnings)
    ∧ (∀ cmd : Str, (validate_command cmd).warnings
        = (dangerous_patterns.filter
              fun pw => subOccurs (pyLower pw.1) (pyLower cmd)).map Prod.snd
          ++ (if startsWith (("sudo ").toList) (pyStrip cmd)
                || startsWith (("su ").toList) (pyStrip cmd) then [sudoWarnStr] else [])
          ++ (if subOccurs ['>'] cmd && !subOccurs ['>', '>'] cmd then [overwriteWarnStr]
              else [])) := by
  refine ⟨⟨by decide, by decide, by decide⟩, ?_, ?_⟩
  · intro cmd p w hmem hsub
    rw [validate_command_eq]
    constructor
    · have hany : dangerous_patterns.any
          (fun pw => subOccurs (pyLower pw.1) (pyLower cmd)) = true :=
        List.any_eq_true.mpr ⟨(p, w), hmem, hsub⟩
      simp [hany]
    · apply List.mem_append_left
      apply List.mem_append_left
      exact List.mem_map.mpr ⟨(p, w), List.mem_filter.mpr ⟨hmem, hsub⟩, rfl⟩
  · intro cmd
    rw [validate_command_eq]

/-- C6 witness: a command containing `dd if=` is classified unsafe with the
disk-operation warning present. -/
theorem C6_witness :
    (validate_command (("dd if=/dev/zero of=x").toList)).safe = false
      ∧ ("⚠️  Disk operation - can overwrite entire disks").toList
          ∈ (validate_command (("dd if=/dev/zero of=x").toList)).warnings :=
  C6_command_extraction_and_classification.2.1 (("dd if=/dev/zero of=x").toList)
    (("dd if=").toList)
    (("⚠️  Disk operation - can overwrite entire disks").toList)
    (by decide) (by decide)

/-- C7: when the user chooses individual confirmation, candidates are
prompted in their original order and exactly those answered y/yes execute: a
`no` answer skips only that candidate.  For any three candidates answered
n/y/n exactly the second executes, and in general the executed list is a
sublist (order-preserving selection) of the candidate list. -/
theorem C7_selective_gate :
    (∀ c1 c2 c3 : Str,
      execute_selective [c1, c2, c3]
        [("n").toList, ("y").toList, ("n").toList] = [c2])
    ∧ ∀ (cmds answers : List Str),
        List.Sublist (execute_selective cmds answers) cmds := by
  constructor
  · intro c1 c2 c3
    rfl
  · intro cmds
    induction cmds with
    | nil => intro answers; exact List.nil_sublist _
    | cons c cs ih =>
      intro answers
      cases answers with
      | nil => exact List.nil_sublist _
      | cons a as =>
        simp only [execute_selective]
        split
        · exact List.Sublist.cons₂ c (ih as)
        · exact List.Sublist.cons c (ih as)

/-- C8 counterexample: `sudoedit foo` starts with the configured elevation
prefix `sudo`, but `validate_command` reports `requires_sudo == false` — the
source compares against the hardcoded strings `"sudo "` and `"su "` (each
with a trailing space), not against prefixes from `Config.SUDO_PREFIXES`. -/
theorem C8_claim_counterexample :
    startsWith (("sudo").toList) (pyStrip (("sudoedit foo").toList)) = true
      ∧ (validate_command (("sudoedit foo").toList)).requires_sudo = false := by
  constructor <;> decide

/-- C8 (amended): `requires_sudo` is true exactly when the trimmed command
starts with `"sudo "` or `"su "` (prefix plus a space, hardcoded in
`validate_command`); in particular `sudo apt install foo` sets it and
`apt install foo` does not. -/
theorem C8_elevation_flag :
    (∀ cmd : Str, (validate_command cmd).requires_sudo
        = (startsWith (("sudo ").toList) (pyStrip cmd)
            || startsWith (("su ").toList) (pyStrip cmd)))
      ∧ (validate_command (("sudo apt install foo").toList)).requires_sudo = true
      ∧ (validate_command (("apt install foo").toList)).requires_sudo = false := by
  refine ⟨?_, by decide, by decide⟩
  intro cmd
  rw [validate_command_eq]

/-- C9: `execute_single` handles every subprocess outcome (the source wraps
the call in catch-all exception handlers, so the model is a total function
returning control to the caller): it returns true exactly on exit code zero
within the timeout, and the three failure cases — non-zero exit, timeout,
spawn-level exception — produce pairwise distinct diagnostics. -/
theorem C9_execute_single_reports :
    ∀ (t : Nat) (o : SubprocessOutcome),
      ((execute_single t o).1 = true ↔
        ∃ out err, o = SubprocessOutcome.completed 0 out err)
      ∧ (∀ (rc : Int) (out err : Str), rc ≠ 0 →
          (execute_single t (SubprocessOutcome.completed rc out err)).2
            ≠ (execute_single t SubprocessOutcome.timedOut).2)
      ∧ (∀ (rc : Int) (out err m : Str), rc ≠ 0 →
          (execute_single t (SubprocessOutcome.completed rc out err)).2
            ≠ (execute_single t (SubprocessOutcome.spawnFailure m)).2)
      ∧ (∀ m : Str, (execute_single t SubprocessOutcome.timedOut).2
          ≠ (execute_single t (SubprocessOutcome.spawnFailure m)).2) := by
  intro t o
  refine ⟨?_, ?_, ?_, ?_⟩
  · cases o with
    | completed rc out err =>
      by_cases h : rc = 0
      · subst h
        simp [execute_single]
      · simp [execute_single, h]
    | timedOut => simp [execute_single]
    | spawnFailure m => simp [execute_single]
  · intro rc out err h
    simp [execute_single, h]
  · intro rc out err m h
    simp [execute_single, h]
  · intro m
    simp [execute_single]

/-- C9 witness: exit code 0 reports success; a non-zero exit is reported
distinctly from a timeout. -/
theorem C9_witness :
    (execute_single 30 (SubprocessOutcome.completed 0 [] [])).1 = true
      ∧ (execute_single 30 (SubprocessOutcome.completed 1 [] (("err").toList))).2
          ≠ (execute_single 30 SubprocessOutcome.timedOut).2 := by
  constructor
  · exact (C9_execute_single_reports 30
      (SubprocessOutcome.completed 0 [] [])).1.mpr ⟨[], [], rfl⟩
  · exact (C9_execute_single_reports 30
      (SubprocessOutcome.completed 1 [] (("err").toList))).2.1 1 [] (("err").toList)
      (by decide)

theorem startsWith_trans :
    ∀ (a b c : Str), startsWith a b = true → startsWith b c = true →
      startsWith a c = true
  | [], _, _, _, _ => rfl
  | _ :: _, [], _, h, _ => by simp [startsWith] at h
  | _ :: _, _ :: _, [], _, h2 => by simp [startsWith] at h2
  | x :: xs, y :: ys, z :: zs, h1, h2 => by
    rcases (startsWith_cons_iff _ _ _ _).mp h1 with ⟨rfl, hr1⟩
    rcases (startsWith_cons_iff _ _ _ _).mp h2 with ⟨rfl, hr2⟩
    exact (startsWith_cons_iff _ _ _ _).mpr ⟨rfl, startsWith_trans xs ys zs hr1 hr2⟩

theorem subOccurs_mono (pat pre : Str) (hp : startsWith pre pat = true) :
    ∀ s : Str, subOccurs pat s = true → subOccurs pre s = true := by
  intro s
  induction s with
  | nil =>
    intro h
    rw [show subOccurs pat [] = startsWith pat [] from rfl, startsWith_nil_iff] at h
    subst h
    rw [startsWith_nil_iff] at hp
    subst hp
    rfl
  | cons c cs ih =>
    intro h
    rw [show subOccurs pat (c :: cs)
          = (startsWith pat (c :: cs) || subOccurs pat cs) from rfl,
        Bool.or_eq_true] at h
    rw [show subOccurs pre (c :: cs)
          = (startsWith pre (c :: cs) || subOccurs pre cs) from rfl,
        Bool.or_eq_true]
    rcases h with h | h
    · exact Or.inl (startsWith_trans pre pat (c :: cs) hp h)
    · exact Or.inr (ih h)

/-- C10: model-family detection is decided by the source's ordered
case-insensitive substring checks — empty (or absent) name maps to default;
`llama` without `code` maps to llama; any name containing `code` that misses
the first branch maps to codellama; then `mistral`, then `deepseek`; and
`deepseek-coder`, containing both `deepseek` and `code`, resolves to
codellama, not deepseek. -/
theorem C10_model_family_order :
    (detect_model_family [] = ("default").toList)
    ∧ (∀ n : Str, subOccurs (("llama").toList) (pyLower n) = true →
        subOccurs (("code").toList) (pyLower n) = false →
        detect_model_family n = ("llama").toList)
    ∧ (∀ n : Str, n ≠ [] → subOccurs (("code").toList) (pyLower n) = true →
        detect_model_family n = ("codellama").toList)
    ∧ (∀ n : Str, subOccurs (("llama").toList) (pyLower n) = false →
        subOccurs (("code").toList) (pyLower n) = false →
        subOccurs (("mistral").toList) (pyLower n) = true →
        detect_model_family n = ("mistral").toList)
    ∧ (∀ n : Str, subOccurs (("llama").toList) (pyLower n) = false →
        subOccurs (("code").toList) (pyLower n) = false →
        subOccurs (("mistral").toList) (pyLower n) = false →
        subOccurs (("deepseek").toList) (pyLower n) = true →
        detect_model_family n = ("deepseek").toList)
    ∧ detect_model_family (("deepseek-coder").toList) = ("codellama").toList := by
  refine ⟨by decide, ?_, ?_, ?_, ?_, by decide⟩
  · intro n hl hc
    cases n with
    | nil => exact absurd hl (by decide)
    | cons a as =>
      have h1 : (subOccurs (("llama").toList) (pyLower (a :: as))
          && !subOccurs (("code").toList) (pyLower (a :: as))) = true := by
        rw [hl, hc]; rfl
      unfold detect_model_family
      rw [if_neg (by simp), if_pos h1]
  · intro n hne hc
    cases n with
    | nil => exact absurd rfl hne
    | cons a as =>
      have h1 : ¬ (subOccurs (("llama").toList) (pyLower (a :: as))
          && !subOccurs (("code").toList) (pyLower (a :: as))) = true := by
        rw [hc]; simp
      have h2 : (subOccurs (("codellama").toList) (pyLower (a :: as))
          || subOccurs (("code").toList) (pyLower (a :: as))) = true := by
        rw [hc]; simp
      unfold detect_model_family
      rw [if_neg (by simp), if_neg h1, if_pos h2]
  · intro n hl hc hm
    cases n with
    | nil => exact absurd hm (by decide)
    | cons a as =>
      have hcl : subOccurs (("codellama").toList) (pyLower (a :: as)) = false := by
        cases hq : subOccurs (("codellama").toList) (pyLower (a :: as)) with
        | false => rfl
        | true =>
          exact absurd
            (subOccurs_mono (("codellama").toList) (("code").toList) (by decide) _ hq)
            (by rw [hc]; simp)
      have h1 : ¬ (subOccurs (("llama").toList) (pyLower (a :: as))
          && !subOccurs (("code").toList) (pyLower (a :: as))) = true := by
        rw [hl]; simp
      have h2 : ¬ (subOccurs (("codellama").toList) (pyLower (a :: as))
          || subOccurs (("code").toList) (pyLower (a :: as))) = true := by
        rw [hcl, hc]; simp
      unfold detect_model_family
      rw [if_neg (by simp), if_neg h1, if_neg h2, if_pos hm]
  · intro n hl hc hm hd
    cases n with
    | nil => exact absurd hd (by decide)
    | cons a as =>
      have hcl : subOccurs (("codellama").toList) (pyLower (a :: as)) = false := by
        cases hq : subOccurs (("codellama").toList) (pyLower (a :: as)) with
        | false => rfl
        | true =>
          exact absurd
            (subOccurs_mono (("codellama").toList) (("code").toList) (by decide) _ hq)
            (by rw [hc]; simp)
      have h1 : ¬ (subOccurs (("llama").toList) (pyLower (a :: as))
          && !subOccurs (("code").toList) (pyLower (a :: as))) = true := by
        rw [hl]; simp
      have h2 : ¬ (subOccurs (("codellama").toList) (pyLower (a :: as))
          || subOccurs (("code").toList) (pyLower (a :: as))) = true := by
        rw [hcl, hc]; simp
      have h3 : ¬ subOccurs (("mistral").toList) (pyLower (a :: as)) = true := by
        rw [hm]; simp
      unfold detect_model_family
      rw [if_neg (by simp), if_neg h1, if_neg h2, if_neg h3, if_pos hd]

/-- C10 witness: `codellama-7b` contains `code`, so it resolves to the
codellama family. -/
theorem C10_witness :
    detect_model_family (("codellama-7b").toList) = ("codellama").toList :=
  C10_model_family_order.2.2.1 (("codellama-7b").toList) (by decide) (by decide)
